import Mathlib

/-!
# Job lifecycle engine of the WebM converter (`main-server.go`, `cpu-monitor.go`)

A shallow embedding of the queue, the scheduler cycle, the conversion executor
and the CPU monitor.

Modelling conventions

* A Go `*Job` is an address into `Store.heap`, the list of every `Job` allocated
  so far (the address is the index).  `queue.jobs` is a list of addresses; the
  Go maps `queue.processing` and `queue.completed` are association lists from
  the job id to the address, with at most one entry per key.
* `queue.mu` and `queue.clients` are not part of the model: every function
  below is one critical section (or one unlocked write) of the source, and the
  interleaving of goroutines is the order in which these functions are applied.
* `time.Time` values are abstract clock readings (`Nat`).
* The `float64` values of the progress computation are IEEE-754 doubles (`F64`):
  every conversion, quotient and product is the exact result rounded to the
  nearest double, ties to even, with gradual underflow and overflow to an
  infinity.
* The CPU usage is an exact rational; `uint64` counters are natural numbers with
  explicit wrap-around.
-/

namespace Bitzy

/-! ## Constants -/

/-- Max concurrent conversions. -/
def MaxConcurrent : Nat := 2

/-- Maximum CPU usage percentage. -/
def MaxCPUUsage : ℚ := 70

/-! ## Data model -/

/-- The `Job` record. -/
structure Job where
  ID : String
  FileName : String
  FileSize : Int
  OutputName : String
  Status : String
  Progress : Int
  QueuePos : Int
  StartedAt : Nat
  CompletedAt : Nat
  CreatedAt : Nat
  Error : String
  TelegramChatID : Int
  TelegramMsgID : Int
  deriving DecidableEq, Repr, Inhabited

/-- The `Queue` record together with the memory its `*Job` pointers point into. -/
structure Store where
  heap : List Job
  jobs : List Nat
  processing : List (String × Nat)
  completed : List (String × Nat)
  deriving DecidableEq, Repr

/-- The package-level `queue` at start-up. -/
def Store.empty : Store := ⟨[], [], [], []⟩

/-! ## Pointers -/

/-- Dereference `*p`. -/
def deref (heap : List Job) (p : Nat) : Job := heap.getD p default

/-- Write through a pointer: `*p = f(*p)`. -/
def modifyAt (f : Job → Job) : List Job → Nat → List Job
  | [], _ => []
  | j :: js, 0 => f j :: js
  | j :: js, p + 1 => j :: modifyAt f js p

/-! ## Go maps keyed by job id -/

/-- Map write `m[k] = v`. -/
def mapSet (k : String) (v : Nat) (m : List (String × Nat)) : List (String × Nat) :=
  m.filter (fun e => e.1 != k) ++ [(k, v)]

/-- Map removal `delete(m, k)`. -/
def mapDelete (k : String) (m : List (String × Nat)) : List (String × Nat) :=
  m.filter (fun e => e.1 != k)

/-- Map read `m[k]`. -/
def mapGet (k : String) (m : List (String × Nat)) : Option Nat :=
  (m.find? (fun e => e.1 == k)).map Prod.snd

/-! ## Enqueueing (`handleUpload`, `handleTelegramDocument`) -/

/-- The loop `for i, j := range queue.jobs { j.QueuePos = i + 1 }`, started at index `i`. -/
def renumberFrom (i : Nat) : List Nat → List Job → List Job
  | [], heap => heap
  | p :: ps, heap =>
    renumberFrom (i + 1) ps (modifyAt (fun j => { j with QueuePos := (i : Int) + 1 }) heap p)

/-- The renumbering loop over the whole queue. -/
def renumber (ps : List Nat) (heap : List Job) : List Job := renumberFrom 0 ps heap

/-- The critical section "Add to queue" shared by both front ends: the freshly
allocated job is appended and every queued job is renumbered. -/
def enqueue (job : Job) (s : Store) : Store :=
  let p := s.heap.length
  let jobs := s.jobs ++ [p]
  { s with heap := renumber jobs (s.heap ++ [job]), jobs := jobs }

/-- The job built by `handleUpload`, then enqueued. -/
def handleUpload (id filename : String) (size : Int) (outputName : String) (now : Nat)
    (s : Store) : Store :=
  enqueue { ID := id, FileName := filename, FileSize := size, OutputName := outputName,
            Status := "queued", Progress := 0, QueuePos := 0, StartedAt := 0,
            CompletedAt := 0, CreatedAt := now, Error := "", TelegramChatID := 0,
            TelegramMsgID := 0 } s

/-- The job built by `handleTelegramDocument`, then enqueued. -/
def handleTelegramDocument (id filename : String) (size : Int) (outputName : String)
    (now : Nat) (chatID msgID : Int) (s : Store) : Store :=
  enqueue { ID := id, FileName := filename, FileSize := size, OutputName := outputName,
            Status := "queued", Progress := 0, QueuePos := 0, StartedAt := 0,
            CompletedAt := 0, CreatedAt := now, Error := "", TelegramChatID := chatID,
            TelegramMsgID := msgID } s

/-! ## Scheduler (`queueProcessor`) -/

/-- One iteration of the `for` loop of `queueProcessor`, given the sampled CPU
usage.  Returns the new store and the job handed to `go processJob(job)`, if any. -/
def queueProcessorCycle (cpuUsage : ℚ) (s : Store) : Store × Option Nat :=
  let canProcess := decide (s.processing.length < MaxConcurrent) && decide (s.jobs.length > 0)
  let canProcess := if canProcess && decide (cpuUsage > MaxCPUUsage) then false else canProcess
  if canProcess then
    match s.jobs with
    | [] => (s, none)
    | job :: rest =>
      ({ s with jobs := rest,
                processing := mapSet (deref s.heap job).ID job s.processing,
                heap := renumber rest s.heap }, some job)
  else (s, none)

/-- The sleep chosen at the end of a cycle, in seconds. -/
def pollInterval (cpuUsage : ℚ) : Nat := if cpuUsage > MaxCPUUsage then 5 else 2

/-! ## float64 arithmetic -/

/-- A `float64`: a NaN, an infinity, or a finite value given as a rational (the
two zeros are not told apart). -/
inductive F64
  | nan
  | negInf
  | fin (q : ℚ)
  | posInf
  deriving DecidableEq, Repr

/-- Number of binary digits of `n`, by repeated halving; `fuel` bounds the number
of halvings. -/
def bitLenFrom : Nat → Nat → Nat
  | 0, _ => 0
  | fuel + 1, n => if n = 0 then 0 else bitLenFrom fuel (n / 2) + 1

/-- Number of binary digits of `n`. -/
def bitLen (n : Nat) : Nat := bitLenFrom n n

/-- The binary exponent of a non-zero rational: the `e` with `2 ^ e ≤ |x| < 2 ^ (e + 1)`. -/
def floorLog2 (x : ℚ) : Int :=
  let d : Int := (bitLen x.num.natAbs : Int) - (bitLen x.den : Int)
  if (2 : ℚ) ^ d ≤ |x| then d else d - 1

/-- Spacing of the doubles around `x`: 53 significant bits, and the spacing
`2 ^ (-1074)` of the subnormal range below `2 ^ (-1022)`. -/
def ulp (x : ℚ) : ℚ := (2 : ℚ) ^ (max (floorLog2 x) (-1022) - 52)

/-- Nearest integer, ties to the even one. -/
def roundHalfEven (m : ℚ) : Int :=
  if m - ⌊m⌋ < 1 / 2 then ⌊m⌋
  else if 1 / 2 < m - ⌊m⌋ then ⌊m⌋ + 1
  else if ⌊m⌋ % 2 = 0 then ⌊m⌋
  else ⌊m⌋ + 1

/-- Nearest multiple of the spacing, ties to even: the rounding of `x` when the
exponent range is unbounded above. -/
def roundQ (x : ℚ) : ℚ := (roundHalfEven (x / ulp x) : ℚ) * ulp x

/-- The `float64` nearest to the exact value `x` (round to nearest, ties to
even); a rounded magnitude of `2 ^ 1024` or more overflows to an infinity. -/
def roundF64 (x : ℚ) : F64 :=
  if (2 : ℚ) ^ 1024 ≤ roundQ x then F64.posInf
  else if roundQ x ≤ -(2 : ℚ) ^ 1024 then F64.negInf
  else F64.fin (roundQ x)

/-- The conversion `float64(n)` of an integer. -/
def F64.ofInt (n : Int) : F64 := roundF64 n

/-- The `float64` quotient `a / b`.  A zero divisor is taken to be `+0`. -/
def F64.div : F64 → F64 → F64
  | F64.nan, _ => F64.nan
  | _, F64.nan => F64.nan
  | F64.fin a, F64.fin b =>
    if b = 0 then (if a = 0 then F64.nan else if 0 < a then F64.posInf else F64.negInf)
    else roundF64 (a / b)
  | F64.fin _, F64.posInf => F64.fin 0
  | F64.fin _, F64.negInf => F64.fin 0
  | F64.posInf, F64.fin b => if 0 ≤ b then F64.posInf else F64.negInf
  | F64.negInf, F64.fin b => if 0 ≤ b then F64.negInf else F64.posInf
  | F64.posInf, F64.posInf => F64.nan
  | F64.posInf, F64.negInf => F64.nan
  | F64.negInf, F64.posInf => F64.nan
  | F64.negInf, F64.negInf => F64.nan

/-- The `float64` product `a * b`. -/
def F64.mul : F64 → F64 → F64
  | F64.nan, _ => F64.nan
  | _, F64.nan => F64.nan
  | F64.fin a, F64.fin b => roundF64 (a * b)
  | F64.fin a, F64.posInf =>
    if a = 0 then F64.nan else if 0 < a then F64.posInf else F64.negInf
  | F64.fin a, F64.negInf =>
    if a = 0 then F64.nan else if 0 < a then F64.negInf else F64.posInf
  | F64.posInf, F64.fin b =>
    if b = 0 then F64.nan else if 0 < b then F64.posInf else F64.negInf
  | F64.negInf, F64.fin b =>
    if b = 0 then F64.nan else if 0 < b then F64.negInf else F64.posInf
  | F64.posInf, F64.posInf => F64.posInf
  | F64.posInf, F64.negInf => F64.negInf
  | F64.negInf, F64.posInf => F64.negInf
  | F64.negInf, F64.negInf => F64.posInf

/-- The `float64` comparison `a > b`; false when an operand is a NaN. -/
def F64.gt : F64 → F64 → Bool
  | F64.fin a, F64.fin b => decide (b < a)
  | F64.fin _, F64.negInf => true
  | F64.posInf, F64.fin _ => true
  | F64.posInf, F64.negInf => true
  | _, _ => false

/-! ## Conversion executor -/

/-- The conversion `int(progress)` of a `float64` to the 64-bit `int`: truncation
toward zero.  When the truncated value does not fit, or the operand is an
infinity or a NaN, Go leaves the result to the implementation; the value taken
here is the one of amd64, the smallest `int`. -/
def goInt : F64 → Int
  | F64.fin x =>
    let t : Int := if 0 ≤ x then ⌊x⌋ else ⌈x⌉
    if -(2 : Int) ^ 63 ≤ t ∧ t < (2 : Int) ^ 63 then t else -(2 : Int) ^ 63
  | _ => -(2 : Int) ^ 63

/-- Go `strings.HasPrefix`. -/
def HasPrefix (s pre : String) : Bool := pre.data.isPrefixOf s.data

/-- Go `strings.TrimPrefix`. -/
def TrimPrefix (s pre : String) : String :=
  if HasPrefix s pre then ⟨s.data.drop pre.data.length⟩ else s

/-- Value of a decimal digit. -/
def digitValue (c : Char) : Option Nat :=
  if '0' ≤ c ∧ c ≤ '9' then some (c.toNat - '0'.toNat) else none

/-- Digit loop of `strconv.ParseUint(s, 10, 64)`. -/
def parseDigits : List Char → Nat → Option Nat
  | [], acc => some acc
  | c :: cs, acc =>
    match digitValue c with
    | none => none
    | some d => parseDigits cs (acc * 10 + d)

/-- Go `strconv.ParseUint(s, 10, 64)` before its range check: `none` is a syntax error. -/
def ParseUint (cs : List Char) : Option Nat :=
  if cs = [] then none else parseDigits cs 0

/-- Go `strconv.ParseInt(s, 10, 64)`; `none` when it returns a non-nil error
(syntax or range). -/
def ParseInt (s : String) : Option Int :=
  match s.data with
  | [] => none
  | c :: cs =>
    let neg := decide (c = '-')
    let body := if c = '+' ∨ c = '-' then cs else c :: cs
    match ParseUint body with
    | none => none
    | some un =>
      if !neg && decide (un ≥ 2 ^ 63) then none
      else if neg && decide (un > 2 ^ 63) then none
      else some (if neg then -(un : Int) else (un : Int))

/-- Body of the scanner loop of `convertVideoWithProgress` for one line: the
argument of `progressCallback`, when the line triggers a call. -/
def lineProgress (duration : F64) (line : String) : Option F64 :=
  if HasPrefix line "out_time_ms=" then
    match ParseInt (TrimPrefix line "out_time_ms=") with
    | some timeMicros =>
      let currentTime : F64 := F64.div (F64.ofInt timeMicros) (F64.fin 1000000)
      if F64.gt duration (F64.fin 0) then
        let progress := F64.mul (F64.div currentTime duration) (F64.fin 100)
        some (if F64.gt progress (F64.fin 100) then F64.fin 100 else progress)
      else none
    | none => none
  else if HasPrefix line "progress=" then
    if TrimPrefix line "progress=" = "end" then some (F64.fin 100) else none
  else none

/-- How an encoder process ended: exit status zero, another exit status (with the
text of the resulting error), or killed by `exec.CommandContext` because the
deadline of the job context passed while it was running. -/
inductive Exit
  | success
  | failure (msg : String)
  | killed
  deriving DecidableEq, Repr

/-- Error returned by `cmd.Wait()`. -/
def Exit.waitErr : Exit → Option String
  | .success => none
  | .failure msg => some msg
  | .killed => some "signal: killed"

/-- What the operating system does with one `exec.Cmd`: whether it can be started,
the lines it writes to standard output, and how it ends. -/
structure Attempt where
  startErr : Option String
  lines : List String
  exit : Exit
  deriving DecidableEq, Repr

/-- The two conversion strategies. -/
inductive Strategy
  | primary
  | fallback
  deriving DecidableEq, Repr

/-- Result of one strategy: the returned error, the arguments of the progress
callback in call order, and whether an encoder process was launched. -/
structure Conversion where
  err : Option String
  callbacks : List F64
  launched : Bool
  deriving DecidableEq, Repr

/-- Go `convertVideoWithProgress`, on a context whose deadline has not passed. -/
def convertVideoWithProgress (run : Attempt) (duration : F64) : Conversion :=
  match run.startErr with
  | some e => ⟨some e, [], false⟩
  | none => ⟨run.exit.waitErr, run.lines.filterMap (lineProgress duration), true⟩

/-- Go `fallbackConversion`, that is `cmd.Run()` on the command built by
`exec.CommandContext(ctx, "ffmpeg", ...)`.  `lookErr` is the error of the lookup
of "ffmpeg" made by `exec.CommandContext` and kept in the command; `Start`
returns it before anything else.  `Start` then returns the error of a context
that is already done, without launching the process.  Otherwise the process is
started (`run.startErr` when that fails) and `Run` returns the error of `Wait`. -/
def fallbackConversion (lookErr : Option String) (ctxDone : Bool) (run : Attempt) :
    Conversion :=
  match lookErr with
  | some e => ⟨some e, [], false⟩
  | none =>
    if ctxDone then ⟨some "context deadline exceeded", [], false⟩
    else
      match run.startErr with
      | some e => ⟨some e, [], false⟩
      | none => ⟨run.exit.waitErr, [], true⟩

/-- The unlocked writes at the top of `processJob`. -/
def processJobStart (now : Nat) (p : Nat) (s : Store) : Store :=
  { s with heap := modifyAt (fun j => { j with Status := "processing", StartedAt := now,
                                               Progress := 0 }) s.heap p }

/-- The closure passed to `convertVideoWithProgress`: `job.Progress = int(progress)`. -/
def progressCallback (progress : F64) (p : Nat) (s : Store) : Store :=
  { s with heap := modifyAt (fun j => { j with Progress := goInt progress }) s.heap p }

/-- The critical section at the end of `processJob`. -/
def processJobFinish (err : Option String) (now : Nat) (p : Nat) (s : Store) : Store :=
  let id := (deref s.heap p).ID
  let processing := mapDelete id s.processing
  match err with
  | some e =>
    { s with processing := processing,
             heap := modifyAt (fun j => { j with Status := "failed", Error := e }) s.heap p }
  | none =>
    { s with processing := processing,
             heap := modifyAt (fun j => { j with Status := "completed", Progress := 100,
                                                 CompletedAt := now }) s.heap p,
             completed := mapSet id p s.completed }

/-- The deferred cleanup goroutine of `processJob`, after its one-hour sleep. -/
def retentionCleanup (p : Nat) (s : Store) : Store :=
  { s with completed := mapDelete (deref s.heap p).ID s.completed }

/-- Everything outside the program that one call of `processJob` depends on.
`probe` is the value returned by `getVideoDuration`, `none` when it returns an
error.  `fallbackLookErr` is the error, if any, of the lookup of "ffmpeg" in `PATH` made
by `exec.CommandContext` when `fallbackConversion` builds its command. -/
structure JobEnv where
  startedAt : Nat
  probe : Option F64
  primary : Attempt
  expiredAfterPrimary : Bool
  fallbackLookErr : Option String
  fallback : Attempt
  finishedAt : Nat
  deriving DecidableEq, Repr

/-- Observable record of one call of `processJob`. -/
structure JobTrace where
  store : Store
  calls : List Strategy
  launched : List Strategy
  progress : List Int
  err : Option String
  deriving DecidableEq, Repr

/-- The duration used by `processJob`: the probed one, or 0 when the probe failed. -/
def JobEnv.duration (env : JobEnv) : F64 :=
  match env.probe with
  | some d => d
  | none => F64.fin 0

/-- Result of the primary attempt of `processJob`. -/
def JobEnv.primaryResult (env : JobEnv) : Conversion :=
  convertVideoWithProgress env.primary env.duration

/-- Whether the job context is done when the fallback is called: the primary
process was killed by the deadline, or the deadline passed just after it ended. -/
def JobEnv.ctxDone (env : JobEnv) : Bool :=
  decide (env.primary.startErr = none ∧ env.primary.exit = Exit.killed)
    || env.expiredAfterPrimary

/-- Result of the fallback attempt of `processJob`, when it is called. -/
def JobEnv.fallbackResult (env : JobEnv) : Conversion :=
  fallbackConversion env.fallbackLookErr env.ctxDone env.fallback

/-- The store when the primary attempt returns: the first writes of `processJob`
followed by one callback per progress update. -/
def afterPrimary (env : JobEnv) (p : Nat) (s : Store) : Store :=
  env.primaryResult.callbacks.foldl (fun st v => progressCallback v p st)
    (processJobStart env.startedAt p s)

/-- The values of `job.Progress` seen while the status is "processing": after the
first writes of `processJob` and after each call of the progress callback. -/
def progressSeen (env : JobEnv) (p : Nat) (s : Store) : List Int :=
  (List.scanl (fun st v => progressCallback v p st) (processJobStart env.startedAt p s)
    env.primaryResult.callbacks).map (fun st => (deref st.heap p).Progress)

/-- Go `processJob` up to the scheduling of the cleanup, run without interleaving.
`calls` lists the conversion functions called, `launched` the encoder processes
started, `progress` the values of `job.Progress` while the status is "processing",
`err` the final value of `err`. -/
def processJob (env : JobEnv) (p : Nat) (s : Store) : JobTrace :=
  let first := env.primaryResult
  let s2 := afterPrimary env p s
  match first.err with
  | some _ =>
    let second := env.fallbackResult
    { store := processJobFinish second.err env.finishedAt p s2,
      calls := [Strategy.primary, Strategy.fallback],
      launched := (if first.launched then [Strategy.primary] else [])
        ++ (if second.launched then [Strategy.fallback] else []),
      progress := progressSeen env p s,
      err := second.err }
  | none =>
    { store := processJobFinish none env.finishedAt p s2,
      calls := [Strategy.primary],
      launched := if first.launched then [Strategy.primary] else [],
      progress := progressSeen env p s,
      err := none }

/-- The elapsed-time marker carried by a line, when the scanner loop parses one. -/
def timeMark (line : String) : Option Int :=
  if HasPrefix line "out_time_ms=" then ParseInt (TrimPrefix line "out_time_ms=") else none

/-- Whether the scanner loop takes the line for the end-of-progress marker. -/
def isEndMark (line : String) : Bool :=
  !HasPrefix line "out_time_ms=" && HasPrefix line "progress="
    && decide (TrimPrefix line "progress=" = "end")

/-- The percentage computed from an elapsed-time marker by the scanner loop:
`float64(timeMicros) / 1000000.0 / duration * 100` in `float64` arithmetic,
replaced by 100 when it is above 100. -/
def cappedPercent (duration : F64) (timeMicros : Int) : F64 :=
  if F64.gt (F64.mul (F64.div (F64.div (F64.ofInt timeMicros) (F64.fin 1000000))
      duration) (F64.fin 100)) (F64.fin 100)
  then F64.fin 100
  else F64.mul (F64.div (F64.div (F64.ofInt timeMicros) (F64.fin 1000000))
      duration) (F64.fin 100)

/-- Order of two `float64` values that are neither negative nor NaN. -/
def NonnegLe : F64 → F64 → Prop
  | F64.fin x, F64.fin y => 0 ≤ x ∧ x ≤ y
  | F64.fin x, F64.posInf => 0 ≤ x
  | F64.posInf, F64.posInf => True
  | _, _ => False

/-- Order of two finite `float64` values between 0 and 100. -/
def PercentLe : F64 → F64 → Prop
  | F64.fin x, F64.fin y => 0 ≤ x ∧ x ≤ y ∧ y ≤ 100
  | _, _ => False

/-! ## Read-only queries -/

/-- Go `handleGetJob`: the job written to the response, `none` for "Job not found". -/
def handleGetJob (jobID : String) (s : Store) : Option Job :=
  match s.jobs.find? (fun p => (deref s.heap p).ID == jobID) with
  | some p => some (deref s.heap p)
  | none =>
    match mapGet jobID s.processing with
    | some p => some (deref s.heap p)
    | none =>
      match mapGet jobID s.completed with
      | some p => some (deref s.heap p)
      | none => none

/-- Addresses collected by `handleGetJobs`. -/
def listedJobs (s : Store) : List Nat :=
  s.jobs ++ s.processing.map Prod.snd ++ s.completed.map Prod.snd

/-- Go `handleGetJobs`: the jobs written to the response (the two maps are listed
in the order of their association lists; Go leaves that order unspecified). -/
def handleGetJobs (s : Store) : List Job := (listedJobs s).map (deref s.heap)

/-- Number of the partitions Queued, Processing, Completed that hold the job at `p`. -/
def partitionCount (s : Store) (p : Nat) : Nat :=
  (if p ∈ s.jobs then 1 else 0) + (if p ∈ s.processing.map Prod.snd then 1 else 0)
    + (if p ∈ s.completed.map Prod.snd then 1 else 0)

/-! ## The running program

The goroutines of the server interleave at the granularity of the functions
above.  `Phase` records, for every allocated job, how far its lifecycle has come;
it is bookkeeping of the model and is never read by the embedded code. -/

/-- Program point of the lifecycle of one job: waiting in the queue; handed to
`go processJob`; past the first three writes of `processJob`; past its final critical
section without and with an error; record removed by the deferred cleanup. -/
inductive Phase
  | queued
  | admitted
  | converting
  | completed
  | failed
  | purged
  deriving DecidableEq, Repr

/-- The store together with the phase of every allocated job (by address). -/
structure Sys where
  store : Store
  phase : List Phase
  deriving DecidableEq, Repr

/-- The server at start-up. -/
def Sys.init : Sys := ⟨Store.empty, []⟩

/-- One atomic step of some goroutine. -/
inductive Action
  | upload (id filename : String) (size : Int) (outputName : String) (now : Nat)
  | telegram (id filename : String) (size : Int) (outputName : String) (now : Nat)
      (chatID msgID : Int)
  | poll (cpuUsage : ℚ)
  | start (p now : Nat)
  | progress (p : Nat) (value : F64)
  | finish (p : Nat) (err : Option String) (now : Nat)
  | cleanup (p : Nat)
  deriving Repr

/-- Effect of one step; `none` when the step cannot happen in this state.  A job
id comes from `uuid.New()` and therefore differs from every id issued before; the
steps of `processJob` happen in program order for a job handed to it by the
scheduler. -/
def Sys.step (σ : Sys) : Action → Option Sys
  | .upload id filename size outputName now =>
    if σ.store.heap.all (fun j => j.ID != id) then
      some ⟨handleUpload id filename size outputName now σ.store, σ.phase ++ [Phase.queued]⟩
    else none
  | .telegram id filename size outputName now chatID msgID =>
    if σ.store.heap.all (fun j => j.ID != id) then
      some ⟨handleTelegramDocument id filename size outputName now chatID msgID σ.store,
            σ.phase ++ [Phase.queued]⟩
    else none
  | .poll cpuUsage =>
    match queueProcessorCycle cpuUsage σ.store with
    | (s, some p) => some ⟨s, σ.phase.set p Phase.admitted⟩
    | (s, none) => some ⟨s, σ.phase⟩
  | .start p now =>
    if σ.phase[p]? = some Phase.admitted then
      some ⟨processJobStart now p σ.store, σ.phase.set p Phase.converting⟩
    else none
  | .progress p value =>
    if σ.phase[p]? = some Phase.converting then
      some ⟨progressCallback value p σ.store, σ.phase⟩
    else none
  | .finish p err now =>
    if σ.phase[p]? = some Phase.converting then
      some ⟨processJobFinish err now p σ.store,
            σ.phase.set p (if err.isSome then Phase.failed else Phase.completed)⟩
    else none
  | .cleanup p =>
    -- the cleanup of a failed job finds nothing to delete; its phase stays `failed`
    if σ.phase[p]? = some Phase.completed then
      some ⟨retentionCleanup p σ.store, σ.phase.set p Phase.purged⟩
    else if σ.phase[p]? = some Phase.failed then
      some ⟨retentionCleanup p σ.store, σ.phase⟩
    else none

/-- Effect of a sequence of steps. -/
def Sys.run (σ : Sys) : List Action → Option Sys
  | [] => some σ
  | a :: as =>
    match σ.step a with
    | some σ' => σ'.run as
    | none => none

/-- States the server can be in. -/
def Reachable (σ : Sys) : Prop := ∃ acts, Sys.init.run acts = some σ

/-- One step as seen on the store alone, without the bookkeeping of phases. -/
inductive StoreStep : Store → Store → Prop
  | enqueue (job : Job) (s : Store) : StoreStep s (enqueue job s)
  | poll (cpuUsage : ℚ) (s : Store) : StoreStep s (queueProcessorCycle cpuUsage s).1
  | start (now p : Nat) (s : Store) : StoreStep s (processJobStart now p s)
  | progress (value : F64) (p : Nat) (s : Store) : StoreStep s (progressCallback value p s)
  | finish (err : Option String) (now p : Nat) (s : Store) :
      StoreStep s (processJobFinish err now p s)
  | cleanup (p : Nat) (s : Store) : StoreStep s (retentionCleanup p s)

/-- Stores reachable from the empty store by any sequence of store steps, with any
arguments and in any order. -/
inductive StoreReachable : Store → Prop
  | empty : StoreReachable Store.empty
  | step (s s' : Store) : StoreReachable s → StoreStep s s' → StoreReachable s'

/-- A job with its queue position blanked: all that the renumbering loop leaves alone. -/
def clearPos (j : Job) : Job := { j with QueuePos := 0 }

/-- Enqueue a list of jobs one after the other, with no step in between. -/
def enqueueAll (js : List Job) (s : Store) : Store := js.foldl (fun st j => enqueue j st) s

/-- Queue invariant: the queued addresses are distinct and allocated, and the job
at index `i` of the queue carries position `i + 1`. -/
def QueueInv (s : Store) : Prop :=
  s.jobs.Nodup ∧ (∀ p ∈ s.jobs, p < s.heap.length) ∧
    ∀ i p : Nat, s.jobs[i]? = some p → (deref s.heap p).QueuePos = (i : Int) + 1

/-- Processing invariant: the concurrency cap, and one entry per key. -/
def ProcInv (s : Store) : Prop :=
  s.processing.length ≤ MaxConcurrent ∧ (s.processing.map Prod.fst).Nodup

/-- The state after a sequence of steps from start-up (start-up itself when the
sequence cannot happen). -/
def Sys.after (acts : List Action) : Sys := (Sys.init.run acts).getD Sys.init

/-- Three uploads in a row. -/
def threeUploads : List Action :=
  [Action.upload "job-1" "a.webm" 10 "a.mp4" 0,
   Action.upload "job-2" "b.webm" 20 "b.mp4" 1,
   Action.upload "job-3" "c.webm" 30 "c.mp4" 2]

/-- Three uploads followed by two scheduler cycles under light load. -/
def twoAdmitted : List Action := threeUploads ++ [Action.poll 10, Action.poll 10]

/-- The first job then runs to successful completion. -/
def firstCompleted : List Action :=
  twoAdmitted ++ [Action.start 0 5, Action.progress 0 (F64.fin 40), Action.finish 0 none 9]

/-- An environment in which the primary encoder is killed by the deadline after
two progress updates; the fallback encoder, were it launched, would succeed. -/
def deadlineEnv : JobEnv :=
  { startedAt := 5, probe := some (F64.fin 8),
    primary := ⟨none, ["out_time_ms=2000000", "progress=continue", "out_time_ms=4000000"],
      Exit.killed⟩,
    expiredAfterPrimary := false,
    fallbackLookErr := none,
    fallback := ⟨none, [], Exit.success⟩,
    finishedAt := 1805 }

/-- An environment in which the primary encoder, started by `nice`, is killed by
the deadline, and the lookup of "ffmpeg" made for the fallback command fails:
the only "ffmpeg" on `PATH` is reached through a relative entry, which `nice`
accepts and `exec.CommandContext` refuses. -/
def deadlineLookupEnv : JobEnv :=
  { startedAt := 5, probe := some (F64.fin 8),
    primary := ⟨none, ["out_time_ms=2000000", "progress=continue", "out_time_ms=4000000"],
      Exit.killed⟩,
    expiredAfterPrimary := false,
    fallbackLookErr :=
      some "exec: \x22ffmpeg\x22: cannot run executable found relative to current directory",
    fallback := ⟨none, [], Exit.success⟩,
    finishedAt := 1805 }

/-- An environment in which the primary encoder exits with an error and the
fallback encoder succeeds, well before the deadline. -/
def retryEnv : JobEnv :=
  { startedAt := 5, probe := some (F64.fin 8),
    primary := ⟨none, ["out_time_ms=2000000"], Exit.failure "exit status 1"⟩,
    expiredAfterPrimary := false,
    fallbackLookErr := none,
    fallback := ⟨none, [], Exit.success⟩,
    finishedAt := 60 }

/-- An environment whose progress stream goes backwards: 4 s, then 2 s, of an 8 s
input. -/
def backwardsEnv : JobEnv :=
  { startedAt := 5, probe := some (F64.fin 8),
    primary := ⟨none, ["out_time_ms=4000000", "progress=continue", "out_time_ms=2000000"],
      Exit.success⟩,
    expiredAfterPrimary := false,
    fallbackLookErr := none,
    fallback := ⟨none, [], Exit.success⟩,
    finishedAt := 60 }

/-- An environment in which the duration probe fails and the encoder succeeds. -/
def probeFailedEnv : JobEnv :=
  { startedAt := 5, probe := none,
    primary := ⟨none, ["out_time_ms=2000000", "progress=continue", "out_time_ms=4000000",
      "progress=end"], Exit.success⟩,
    expiredAfterPrimary := false,
    fallbackLookErr := none,
    fallback := ⟨none, [], Exit.success⟩,
    finishedAt := 60 }

/-- An environment whose stream carries a negative elapsed-time marker, for a
1 s input; the encoder succeeds. -/
def negativeEnv : JobEnv :=
  { startedAt := 5, probe := some (F64.fin 1),
    primary := ⟨none, ["out_time_ms=-1000000"], Exit.success⟩,
    expiredAfterPrimary := false,
    fallbackLookErr := none,
    fallback := ⟨none, [], Exit.success⟩,
    finishedAt := 60 }

/-- An environment whose stream carries the marker 0.29 s, for a 1 s input; the
encoder succeeds. -/
def roundingEnv : JobEnv :=
  { startedAt := 5, probe := some (F64.fin 1),
    primary := ⟨none, ["out_time_ms=290000"], Exit.success⟩,
    expiredAfterPrimary := false,
    fallbackLookErr := none,
    fallback := ⟨none, [], Exit.success⟩,
    finishedAt := 60 }

/-- The ids of the allocated jobs, by address. -/
def Store.ids (s : Store) : List String := s.heap.map Job.ID

/-- The statuses of the allocated jobs, by address. -/
def Store.statuses (s : Store) : List String := s.heap.map Job.Status

/-- No two addresses carry the same id. -/
def Uniq (ids : List String) : Prop :=
  ∀ (p q : Nat) (k : String), ids[p]? = some k → ids[q]? = some k → p = q

/-- The queue holds exactly the addresses in phase `queued`. -/
def QueuedInv (ph : List Phase) (jobs : List Nat) : Prop :=
  ∀ p : Nat, p ∈ jobs ↔ ph[p]? = some Phase.queued

/-- A map holds exactly the addresses whose phase satisfies `S`, each under its id. -/
def MapInv (S : Phase → Prop) (ph : List Phase) (ids : List String)
    (m : List (String × Nat)) : Prop :=
  ∀ (k : String) (q : Nat), (k, q) ∈ m ↔ (∃ x, ph[q]? = some x ∧ S x) ∧ ids[q]? = some k

/-- The status "failed" marks exactly the addresses in phase `failed`. -/
def FailedInv (ph : List Phase) (sts : List String) : Prop :=
  ∀ q : Nat, sts[q]? = some "failed" ↔ ph[q]? = some Phase.failed

/-- Phases of the Processing partition. -/
def Phase.running (x : Phase) : Prop := x = Phase.admitted ∨ x = Phase.converting

/-- Phases of the Completed partition. -/
def Phase.done (x : Phase) : Prop := x = Phase.completed

/-- The invariant that ties the three partitions to the lifecycle of each job. -/
structure SysInv (σ : Sys) : Prop where
  len : σ.phase.length = σ.store.heap.length
  uniq : Uniq σ.store.ids
  nodup : σ.store.jobs.Nodup
  queued : QueuedInv σ.phase σ.store.jobs
  processing : MapInv Phase.running σ.phase σ.store.ids σ.store.processing
  completed : MapInv Phase.done σ.phase σ.store.ids σ.store.completed
  failed : FailedInv σ.phase σ.store.statuses

/-- Three uploads, two admissions, then both attempts of the first job fail. -/
def firstFailed : List Action :=
  twoAdmitted ++ [Action.start 0 5, Action.progress 0 (F64.fin 40),
    Action.finish 0 (some "exit status 1") 9]

/-- Decimal digits of a natural number, most significant first. -/
def decimalDigits (n : Nat) : List Char :=
  if n = 0 then ['0'] else (Nat.digits 10 n).reverse.map Nat.digitChar

/-- Decimal rendering of an integer, as printed by the encoder (`%lld`). -/
def formatInt (n : Int) : String :=
  if n < 0 then ⟨'-' :: decimalDigits n.natAbs⟩ else ⟨decimalDigits n.toNat⟩

/-! ## CPU monitor (`cpu-monitor.go`) -/

/-- The `CPUStats` record; every field is a `uint64`. -/
structure CPUStats where
  user : Nat
  nice : Nat
  system : Nat
  idle : Nat
  iowait : Nat
  total : Nat
  deriving DecidableEq, Repr

/-- The zero value `CPUStats{}`. -/
def CPUStats.zero : CPUStats := ⟨0, 0, 0, 0, 0, 0⟩

/-- The `CPUMonitor` record. -/
structure CPUMonitor where
  lastStats : CPUStats
  deriving DecidableEq, Repr

/-- Number of `uint64` values. -/
def uint64Size : Nat := 18446744073709551616

/-- Subtraction of `uint64` values, which wraps around. -/
def subUint64 (a b : Nat) : Nat := (a % uint64Size + uint64Size - b % uint64Size) % uint64Size

/-- Go `unicode.IsSpace`. -/
def isSpace (c : Char) : Bool :=
  [9, 10, 11, 12, 13, 32, 133, 160, 5760, 8232, 8233, 8239, 8287, 12288].contains c.toNat
    || (decide (8192 ≤ c.toNat) && decide (c.toNat ≤ 8202))

/-- Loop of Go `strings.Fields`: `cur` is the field being read, in reverse. -/
def fieldsFrom : List Char → List Char → List String
  | [], cur => if cur = [] then [] else [⟨cur.reverse⟩]
  | c :: cs, cur =>
    if isSpace c then
      if cur = [] then fieldsFrom cs [] else ⟨cur.reverse⟩ :: fieldsFrom cs []
    else fieldsFrom cs (c :: cur)

/-- Go `strings.Fields`. -/
def Fields (s : String) : List String := fieldsFrom s.data []

/-- Digit loop of `strconv.ParseUint(s, 10, 64)`, keeping only the returned value:
0 after a syntax error, the largest `uint64` after an overflow. -/
def uintValueFrom : List Char → Nat → Nat
  | [], n => n
  | c :: cs, n =>
    match digitValue c with
    | none => 0
    | some d =>
      if n ≥ (uint64Size - 1) / 10 + 1 then uint64Size - 1
      else if n * 10 + d > uint64Size - 1 then uint64Size - 1
      else uintValueFrom cs (n * 10 + d)

/-- The value of `v, _ := strconv.ParseUint(s, 10, 64)`. -/
def uintValue (s : String) : Nat := uintValueFrom s.data 0

/-- Go `getCPUStats`, given the lines of `/proc/stat` (`none` when it cannot be
opened). -/
def getCPUStats : Option (List String) → CPUStats
  | none => CPUStats.zero
  | some lines =>
    match lines.find? (fun line => HasPrefix line "cpu ") with
    | none => CPUStats.zero
    | some line =>
      let fields := Fields line
      if fields.length < 8 then CPUStats.zero
      else
        let user := uintValue (fields.getD 1 "")
        let nice := uintValue (fields.getD 2 "")
        let system := uintValue (fields.getD 3 "")
        let idle := uintValue (fields.getD 4 "")
        let iowait := uintValue (fields.getD 5 "")
        { user := user, nice := nice, system := system, idle := idle, iowait := iowait,
          total := (user + nice + system + idle + iowait) % uint64Size }

/-- Go `NewCPUMonitor`, given the reading of `getCPUStats()`. -/
def NewCPUMonitor (currentStats : CPUStats) : CPUMonitor := { lastStats := currentStats }

/-- One call of `GetCPUUsage`: the returned value, whether the division was
evaluated, and the monitor after the call. -/
structure UsageCall where
  usage : ℚ
  divided : Bool
  monitor : CPUMonitor
  deriving DecidableEq, Repr

/-- Go `CPUMonitor.GetCPUUsage`, given the reading of `getCPUStats()`. -/
def CPUMonitor.GetCPUUsage (m : CPUMonitor) (currentStats : CPUStats) : UsageCall :=
  let idleDiff : ℚ := (subUint64 currentStats.idle m.lastStats.idle : Nat)
  let totalDiff : ℚ := (subUint64 currentStats.total m.lastStats.total : Nat)
  if totalDiff = 0 then { usage := 0, divided := false, monitor := m }
  else
    { usage := 100 * (1 - idleDiff / totalDiff), divided := true,
      monitor := { lastStats := currentStats } }

/-- Go `CPUMonitor.ShouldThrottle`. -/
def CPUMonitor.ShouldThrottle (m : CPUMonitor) (currentStats : CPUStats) (threshold : ℚ) :
    Bool × CPUMonitor :=
  (decide ((m.GetCPUUsage currentStats).usage > threshold), (m.GetCPUUsage currentStats).monitor)

/-- A `/proc/stat` as read when the monitor took its sample. -/
def statBefore : List String :=
  ["cpu  100 0 50 800 50 0 0 0 0 0", "cpu0 100 0 50 800 50 0 0 0 0 0", "intr 12345"]

/-- A later `/proc/stat`: user and idle time have grown by 10 each, `iowait` has
dropped by 20, so the sum of the five counters is the same. -/
def statSameTotal : List String :=
  ["cpu  110 0 50 810 30 0 0 0 0 0", "cpu0 110 0 50 810 30 0 0 0 0 0", "intr 12399"]

/-- A still later `/proc/stat`: 100 more ticks, 40 of them idle. -/
def statLater : List String :=
  ["cpu  160 0 50 850 40 0 0 0 0 0", "cpu0 160 0 50 850 40 0 0 0 0 0", "intr 12499"]

/-! ## Basic facts about pointers and maps -/

theorem length_modifyAt (f : Job → Job) (heap : List Job) (p : Nat) :
    (modifyAt f heap p).length = heap.length := by
  induction heap generalizing p with
  | nil => rfl
  | cons j js ih =>
    cases p with
    | zero => rfl
    | succ p => simp [modifyAt, ih]

theorem deref_modifyAt_same (f : Job → Job) (heap : List Job) (p : Nat)
    (hp : p < heap.length) : deref (modifyAt f heap p) p = f (deref heap p) := by
  induction heap generalizing p with
  | nil => simp at hp
  | cons j js ih =>
    cases p with
    | zero => simp [modifyAt, deref]
    | succ p =>
      have := ih p (by simpa using hp)
      simpa [modifyAt, deref] using this

theorem deref_modifyAt_ne (f : Job → Job) (heap : List Job) (p q : Nat) (hq : q ≠ p) :
    deref (modifyAt f heap p) q = deref heap q := by
  induction heap generalizing p q with
  | nil => rfl
  | cons j js ih =>
    cases p with
    | zero =>
      cases q with
      | zero => exact absurd rfl hq
      | succ q => simp [modifyAt, deref]
    | succ p =>
      cases q with
      | zero => simp [modifyAt, deref]
      | succ q =>
        have := ih p q (by omega)
        simpa [modifyAt, deref] using this

theorem deref_modifyAt_outside (f : Job → Job) (heap : List Job) (p q : Nat)
    (hq : heap.length ≤ q) : deref (modifyAt f heap p) q = deref heap q := by
  have h1 : (modifyAt f heap p).length ≤ q := by rw [length_modifyAt]; exact hq
  simp [deref, List.getElem?_eq_none, h1, hq]

/-- A write that keeps a field keeps it at every address. -/
theorem deref_modifyAt_field {α : Type} (g : Job → α) (f : Job → Job)
    (hf : ∀ j, g (f j) = g j) (heap : List Job) (p q : Nat) :
    g (deref (modifyAt f heap p) q) = g (deref heap q) := by
  by_cases hq : q = p
  · subst hq
    by_cases hp : q < heap.length
    · rw [deref_modifyAt_same f heap q hp, hf]
    · rw [deref_modifyAt_outside f heap q q (by omega)]
  · rw [deref_modifyAt_ne f heap p q hq]

theorem length_renumberFrom (i : Nat) (ps : List Nat) (heap : List Job) :
    (renumberFrom i ps heap).length = heap.length := by
  induction ps generalizing i heap with
  | nil => rfl
  | cons p ps ih => simp [renumberFrom, ih, length_modifyAt]

/-- The renumbering loop changes no field other than `QueuePos`. -/
theorem deref_renumberFrom_field {α : Type} (g : Job → α)
    (hg : ∀ (j : Job) (v : Int), g { j with QueuePos := v } = g j)
    (i : Nat) (ps : List Nat) (heap : List Job) (q : Nat) :
    g (deref (renumberFrom i ps heap) q) = g (deref heap q) := by
  induction ps generalizing i heap with
  | nil => rfl
  | cons p ps ih =>
    simp only [renumberFrom]
    rw [ih]
    exact deref_modifyAt_field g _ (fun j => hg j _) heap p q

theorem deref_renumberFrom_notMem (i : Nat) (ps : List Nat) (heap : List Job) (q : Nat)
    (hq : q ∉ ps) : deref (renumberFrom i ps heap) q = deref heap q := by
  induction ps generalizing i heap with
  | nil => rfl
  | cons p ps ih =>
    simp only [List.mem_cons, not_or] at hq
    simp only [renumberFrom]
    rw [ih _ _ hq.2, deref_modifyAt_ne _ _ _ _ hq.1]

/-- After the renumbering loop the job at index `k` of the list has position
`i + k + 1`. -/
theorem queuePos_renumberFrom (i : Nat) (ps : List Nat) (heap : List Job)
    (hnd : ps.Nodup) (hval : ∀ p ∈ ps, p < heap.length) (k p : Nat)
    (hk : ps[k]? = some p) :
    (deref (renumberFrom i ps heap) p).QueuePos = (i : Int) + k + 1 := by
  induction ps generalizing i heap k with
  | nil => simp at hk
  | cons a ps ih =>
    have hnd' := List.nodup_cons.mp hnd
    cases k with
    | zero =>
      simp only [List.getElem?_cons_zero, Option.some.injEq] at hk
      subst hk
      simp only [renumberFrom]
      rw [deref_renumberFrom_notMem _ _ _ _ hnd'.1,
        deref_modifyAt_same _ _ _ (hval a (List.mem_cons_self _ _))]
      simp
    | succ k =>
      simp only [List.getElem?_cons_succ] at hk
      simp only [renumberFrom]
      rw [ih (i + 1) _ hnd'.2
        (fun q hq => by rw [length_modifyAt]; exact hval q (List.mem_cons_of_mem _ hq)) k hk]
      push_cast
      ring

theorem length_mapSet_le (k : String) (v : Nat) (m : List (String × Nat)) :
    (mapSet k v m).length ≤ m.length + 1 := by
  simp only [mapSet, List.length_append, List.length_singleton]
  exact Nat.add_le_add_right (List.length_filter_le _ _) 1

theorem length_mapDelete_le (k : String) (m : List (String × Nat)) :
    (mapDelete k m).length ≤ m.length := List.length_filter_le _ _

theorem mem_mapDelete (k : String) (m : List (String × Nat)) (e : String × Nat) :
    e ∈ mapDelete k m ↔ e ∈ m ∧ e.1 ≠ k := by
  simp [mapDelete]

theorem mem_mapSet (k : String) (v : Nat) (m : List (String × Nat)) (e : String × Nat) :
    e ∈ mapSet k v m ↔ (e ∈ m ∧ e.1 ≠ k) ∨ e = (k, v) := by
  simp [mapSet]

theorem keys_nodup_mapDelete (k : String) (m : List (String × Nat))
    (h : (m.map Prod.fst).Nodup) : ((mapDelete k m).map Prod.fst).Nodup := by
  unfold mapDelete
  exact (List.filter_sublist m).map Prod.fst |>.nodup h

theorem keys_nodup_mapSet (k : String) (v : Nat) (m : List (String × Nat))
    (h : (m.map Prod.fst).Nodup) : ((mapSet k v m).map Prod.fst).Nodup := by
  unfold mapSet
  rw [List.map_append, List.nodup_append]
  refine ⟨keys_nodup_mapDelete k m h, by simp, ?_⟩
  intro a ha hb
  simp only [List.map_cons, List.map_nil, List.mem_singleton] at hb
  subst hb
  simp at ha

/-! ## Reachability -/

theorem step_storeStep (σ σ' : Sys) (a : Action) (h : σ.step a = some σ') :
    StoreStep σ.store σ'.store := by
  cases a with
  | upload id filename size outputName now =>
    simp only [Sys.step] at h
    split at h
    · cases h; exact StoreStep.enqueue _ _
    · cases h
  | telegram id filename size outputName now chatID msgID =>
    simp only [Sys.step] at h
    split at h
    · cases h; exact StoreStep.enqueue _ _
    · cases h
  | poll cpuUsage =>
    simp only [Sys.step] at h
    have hs := StoreStep.poll cpuUsage σ.store
    split at h
    · next s p heq => cases h; rw [heq] at hs; exact hs
    · next s heq => cases h; rw [heq] at hs; exact hs
  | start p now =>
    simp only [Sys.step] at h
    split at h
    · cases h; exact StoreStep.start _ _ _
    · cases h
  | progress p value =>
    simp only [Sys.step] at h
    split at h
    · cases h; exact StoreStep.progress _ _ _
    · cases h
  | finish p err now =>
    simp only [Sys.step] at h
    split at h
    · cases h; exact StoreStep.finish _ _ _ _
    · cases h
  | cleanup p =>
    simp only [Sys.step] at h
    split at h
    · cases h; exact StoreStep.cleanup _ _
    · split at h
      · cases h; exact StoreStep.cleanup _ _
      · cases h

theorem run_invariant (P : Sys → Prop)
    (hstep : ∀ σ a σ', P σ → σ.step a = some σ' → P σ') :
    ∀ (acts : List Action) (σ σ' : Sys), P σ → σ.run acts = some σ' → P σ' := by
  intro acts
  induction acts with
  | nil =>
    intro σ σ' hP h
    simp only [Sys.run, Option.some.injEq] at h
    exact h ▸ hP
  | cons a as ih =>
    intro σ σ' hP h
    simp only [Sys.run] at h
    split at h
    · next σ₁ h₁ => exact ih σ₁ σ' (hstep σ a σ₁ hP h₁) h
    · cases h

/-- Induction over the reachable states. -/
theorem reachable_invariant (P : Sys → Prop) (h0 : P Sys.init)
    (hstep : ∀ σ a σ', P σ → σ.step a = some σ' → P σ') :
    ∀ σ, Reachable σ → P σ := by
  rintro σ ⟨acts, h⟩
  exact run_invariant P hstep acts Sys.init σ h0 h

/-- The store of a reachable state of the server is a reachable store. -/
theorem reachable_store (σ : Sys) (h : Reachable σ) : StoreReachable σ.store :=
  reachable_invariant (fun σ => StoreReachable σ.store) StoreReachable.empty
    (fun σ a σ' hP hs => StoreReachable.step σ.store σ'.store hP (step_storeStep σ σ' a hs))
    σ h

/-- A property of the store kept by every store step holds in every reachable store. -/
theorem storeReachable_invariant (P : Store → Prop) (h0 : P Store.empty)
    (hstep : ∀ s s', P s → StoreStep s s' → P s') :
    ∀ s, StoreReachable s → P s := by
  intro s h
  induction h with
  | empty => exact h0
  | step s s' _ hs ih => exact hstep s s' ih hs

/-! ## The scheduler cycle -/

/-- The cycle admits the head of the queue when both gates are open. -/
theorem queueProcessorCycle_open (cpuUsage : ℚ) (s : Store) (job : Nat) (rest : List Nat)
    (hjobs : s.jobs = job :: rest) (hproc : s.processing.length < MaxConcurrent)
    (hcpu : cpuUsage ≤ MaxCPUUsage) :
    queueProcessorCycle cpuUsage s =
      ({ s with jobs := rest,
                processing := mapSet (deref s.heap job).ID job s.processing,
                heap := renumber rest s.heap }, some job) := by
  have hc : ¬ (MaxCPUUsage < cpuUsage) := not_lt.mpr hcpu
  simp [queueProcessorCycle, hjobs, hproc, hc]

/-- The cycle changes nothing when a gate is closed. -/
theorem queueProcessorCycle_closed (cpuUsage : ℚ) (s : Store)
    (h : s.jobs = [] ∨ MaxConcurrent ≤ s.processing.length ∨ cpuUsage > MaxCPUUsage) :
    queueProcessorCycle cpuUsage s = (s, none) := by
  rcases h with h | h | h
  · simp [queueProcessorCycle, h]
  · have : ¬ (s.processing.length < MaxConcurrent) := not_lt.mpr h
    simp [queueProcessorCycle, this]
  · simp only [queueProcessorCycle, h, decide_True, Bool.and_true]
    split <;> simp_all

theorem queueProcessorCycle_cases (cpuUsage : ℚ) (s : Store) :
    (∃ job rest, s.jobs = job :: rest ∧ s.processing.length < MaxConcurrent ∧
      cpuUsage ≤ MaxCPUUsage ∧
      queueProcessorCycle cpuUsage s =
        ({ s with jobs := rest,
                  processing := mapSet (deref s.heap job).ID job s.processing,
                  heap := renumber rest s.heap }, some job)) ∨
    queueProcessorCycle cpuUsage s = (s, none) := by
  by_cases hcpu : cpuUsage ≤ MaxCPUUsage
  · by_cases hproc : s.processing.length < MaxConcurrent
    · cases hjobs : s.jobs with
      | nil => exact Or.inr (queueProcessorCycle_closed cpuUsage s (Or.inl hjobs))
      | cons job rest =>
        exact Or.inl ⟨job, rest, rfl, hproc, hcpu,
          queueProcessorCycle_open cpuUsage s job rest hjobs hproc hcpu⟩
    · exact Or.inr (queueProcessorCycle_closed cpuUsage s (Or.inr (Or.inl (not_lt.mp hproc))))
  · exact Or.inr (queueProcessorCycle_closed cpuUsage s (Or.inr (Or.inr (not_le.mp hcpu))))

/-! ## Queue positions -/

theorem queueInv_empty : QueueInv Store.empty := by
  refine ⟨List.nodup_nil, ?_, ?_⟩
  · intro p hp; simp [Store.empty] at hp
  · intro i p h; simp [Store.empty] at h

theorem queueInv_enqueue (job : Job) (s : Store) (h : QueueInv s) :
    QueueInv (enqueue job s) := by
  obtain ⟨hnd, hval, _⟩ := h
  have hnd' : (s.jobs ++ [s.heap.length]).Nodup := by
    rw [List.nodup_append]
    refine ⟨hnd, List.nodup_singleton _, ?_⟩
    intro a ha hb
    simp only [List.mem_singleton] at hb
    have := hval a ha
    omega
  have hval' : ∀ p ∈ s.jobs ++ [s.heap.length], p < (s.heap ++ [job]).length := by
    intro p hp
    simp only [List.mem_append, List.mem_singleton] at hp
    simp only [List.length_append, List.length_singleton]
    rcases hp with hp | hp
    · have := hval p hp; omega
    · omega
  refine ⟨hnd', ?_, ?_⟩
  · intro p hp
    simp only [enqueue, renumber, length_renumberFrom]
    exact hval' p hp
  · intro i p hi
    have := queuePos_renumberFrom 0 _ (s.heap ++ [job]) hnd' hval' i p hi
    simpa [enqueue, renumber] using this

theorem queueInv_modifyAt (s s' : Store) (p : Nat) (f : Job → Job) (hj : s'.jobs = s.jobs)
    (hh : s'.heap = modifyAt f s.heap p) (hf : ∀ j, (f j).QueuePos = j.QueuePos)
    (h : QueueInv s) : QueueInv s' := by
  obtain ⟨hnd, hval, hpos⟩ := h
  refine ⟨hj ▸ hnd, ?_, ?_⟩
  · intro q hq
    rw [hh, length_modifyAt]
    exact hval q (hj ▸ hq)
  · intro i q hi
    rw [hh, deref_modifyAt_field (fun j => j.QueuePos) f hf]
    exact hpos i q (hj ▸ hi)

theorem queueInv_poll (cpuUsage : ℚ) (s : Store) (h : QueueInv s) :
    QueueInv (queueProcessorCycle cpuUsage s).1 := by
  rcases queueProcessorCycle_cases cpuUsage s with ⟨job, rest, hjobs, _, _, heq⟩ | heq
  · obtain ⟨hnd, hval, _⟩ := h
    rw [heq]
    rw [hjobs] at hnd hval
    have hnd' := (List.nodup_cons.mp hnd).2
    have hval' : ∀ p ∈ rest, p < s.heap.length :=
      fun p hp => hval p (List.mem_cons_of_mem _ hp)
    refine ⟨hnd', ?_, ?_⟩
    · intro p hp
      simp only [renumber, length_renumberFrom]
      exact hval' p hp
    · intro i p hi
      have := queuePos_renumberFrom 0 rest s.heap hnd' hval' i p hi
      simpa [renumber] using this
  · rw [heq]; exact h

theorem queueInv_step (s s' : Store) (h : QueueInv s) (hs : StoreStep s s') : QueueInv s' := by
  cases hs with
  | enqueue job => exact queueInv_enqueue job s h
  | poll cpuUsage => exact queueInv_poll cpuUsage s h
  | start now p => exact queueInv_modifyAt s _ p _ rfl rfl (fun _ => rfl) h
  | progress value p => exact queueInv_modifyAt s _ p _ rfl rfl (fun _ => rfl) h
  | finish err now p =>
    cases err with
    | none => exact queueInv_modifyAt s _ p _ rfl rfl (fun _ => rfl) h
    | some e => exact queueInv_modifyAt s _ p _ rfl rfl (fun _ => rfl) h
  | cleanup p => exact ⟨h.1, h.2.1, h.2.2⟩

theorem map_modifyAt_field {α : Type} (g : Job → α) (f : Job → Job)
    (hf : ∀ j, g (f j) = g j) (heap : List Job) (p : Nat) :
    (modifyAt f heap p).map g = heap.map g := by
  induction heap generalizing p with
  | nil => rfl
  | cons j js ih =>
    cases p with
    | zero => simp [modifyAt, hf]
    | succ p => simp [modifyAt, ih]

theorem map_renumberFrom_field {α : Type} (g : Job → α)
    (hg : ∀ (j : Job) (v : Int), g { j with QueuePos := v } = g j)
    (i : Nat) (ps : List Nat) (heap : List Job) :
    (renumberFrom i ps heap).map g = heap.map g := by
  induction ps generalizing i heap with
  | nil => rfl
  | cons p ps ih =>
    simp only [renumberFrom]
    rw [ih, map_modifyAt_field g _ (fun j => hg j _)]

theorem enqueueAll_append (js : List Job) (j : Job) (s : Store) :
    enqueueAll (js ++ [j]) s = enqueue j (enqueueAll js s) := by
  simp [enqueueAll, List.foldl_append]

theorem enqueueAll_empty (js : List Job) :
    QueueInv (enqueueAll js Store.empty) ∧
      (enqueueAll js Store.empty).jobs = List.range js.length ∧
      (enqueueAll js Store.empty).heap.length = js.length ∧
      (enqueueAll js Store.empty).heap.map clearPos = js.map clearPos := by
  induction js using List.reverseRecOn with
  | nil => exact ⟨queueInv_empty, rfl, rfl, rfl⟩
  | append_singleton js j ih =>
    obtain ⟨h1, h2, h3, h4⟩ := ih
    rw [enqueueAll_append]
    refine ⟨queueInv_enqueue j _ h1, ?_, ?_, ?_⟩
    · simp [enqueue, h2, h3, List.range_succ]
    · simp [enqueue, renumber, length_renumberFrom, h3]
    · simp only [enqueue, renumber]
      rw [map_renumberFrom_field clearPos (fun _ _ => rfl)]
      simp [h4]

theorem reachable_after (acts : List Action) (h : (Sys.init.run acts).isSome = true) :
    Reachable (Sys.after acts) := by
  refine ⟨acts, ?_⟩
  unfold Sys.after
  cases hr : Sys.init.run acts with
  | none => rw [hr] at h; cases h
  | some σ => rfl

/-- C1: in every store reachable by enqueue steps, scheduler cycles and the steps
of `processJob`, in any order, the job at index `i` of the queue has
`QueuePos = i + 1`, so the positions read along the queue are exactly `1..N`; and
after enqueueing `N` jobs with no step in between, the queue holds the jobs in
enqueueing order (addresses `0..N-1`, records unchanged apart from the position)
and the `k`-th of them has position `k`. -/
theorem queue_positions_contiguous :
    (∀ s, StoreReachable s →
      (∀ i p : Nat, s.jobs[i]? = some p → (deref s.heap p).QueuePos = (i : Int) + 1) ∧
      s.jobs.map (fun p => (deref s.heap p).QueuePos)
        = (List.range s.jobs.length).map (fun i : Nat => (i : Int) + 1)) ∧
    (∀ js : List Job,
      (enqueueAll js Store.empty).jobs = List.range js.length ∧
      (enqueueAll js Store.empty).heap.map clearPos = js.map clearPos ∧
      ∀ k, k < js.length →
        (deref (enqueueAll js Store.empty).heap k).QueuePos = (k : Int) + 1) := by
  constructor
  · intro s hs
    have hinv : QueueInv s :=
      storeReachable_invariant QueueInv queueInv_empty
        (fun s s' h hs => queueInv_step s s' h hs) s hs
    refine ⟨hinv.2.2, ?_⟩
    apply List.ext_getElem?
    intro i
    rw [List.getElem?_map, List.getElem?_map]
    by_cases hi : i < s.jobs.length
    · have hget : s.jobs[i]? = some s.jobs[i] := List.getElem?_eq_getElem hi
      rw [hget, List.getElem?_range hi]
      simp only [Option.map_some', hinv.2.2 i _ hget]
    · rw [List.getElem?_eq_none (Nat.le_of_not_lt hi),
        List.getElem?_eq_none (by rw [List.length_range]; exact Nat.le_of_not_lt hi)]
      rfl
  · intro js
    obtain ⟨h1, h2, _, h4⟩ := enqueueAll_empty js
    refine ⟨h2, h4, ?_⟩
    intro k hk
    apply h1.2.2 k k
    rw [h2]
    simp [hk]

/-- C1, instance: after three uploads and two admissions the one queued job (the
third upload) has position 1. -/
theorem queue_positions_contiguous_witness :
    StoreReachable (Sys.after twoAdmitted).store ∧
      (Sys.after twoAdmitted).store.jobs = [2] ∧
      (deref (Sys.after twoAdmitted).store.heap 2).QueuePos = 1 := by
  have hr : StoreReachable (Sys.after twoAdmitted).store :=
    reachable_store _ (reachable_after twoAdmitted (by decide))
  refine ⟨hr, by decide, ?_⟩
  have := (queue_positions_contiguous.1 (Sys.after twoAdmitted).store hr).1 0 2 (by decide)
  simpa using this

/-! ## The concurrency cap -/

theorem procInv_step (s s' : Store) (h : ProcInv s) (hs : StoreStep s s') : ProcInv s' := by
  cases hs with
  | enqueue job => exact h
  | poll cpuUsage =>
    rcases queueProcessorCycle_cases cpuUsage s with ⟨job, rest, _, hproc, _, heq⟩ | heq
    · rw [heq]
      refine ⟨?_, keys_nodup_mapSet _ _ _ h.2⟩
      have := length_mapSet_le (deref s.heap job).ID job s.processing
      show (mapSet (deref s.heap job).ID job s.processing).length ≤ MaxConcurrent
      omega
    · rw [heq]; exact h
  | start now p => exact h
  | progress value p => exact h
  | finish err now p =>
    have hl := length_mapDelete_le (deref s.heap p).ID s.processing
    have hk := keys_nodup_mapDelete (deref s.heap p).ID s.processing h.2
    cases err with
    | none => exact ⟨le_trans hl h.1, hk⟩
    | some e => exact ⟨le_trans hl h.1, hk⟩
  | cleanup p => exact h

/-- C2: in every store reachable by enqueue steps, scheduler cycles and the steps
of `processJob`, in any order, the Processing partition holds at most
`MaxConcurrent` jobs (the list that stands for the Go map has one entry per key, so
its length is the `len` of the map). -/
theorem processing_bounded (s : Store) (h : StoreReachable s) :
    s.processing.length ≤ MaxConcurrent ∧ (s.processing.map Prod.fst).Nodup :=
  storeReachable_invariant ProcInv ⟨Nat.zero_le _, List.nodup_nil⟩
    (fun s s' hi hs => procInv_step s s' hi hs) s h

/-- C2, instance: with three jobs uploaded the scheduler fills both slots and the
cap holds with equality. -/
theorem processing_bounded_witness :
    StoreReachable (Sys.after twoAdmitted).store ∧
      (Sys.after twoAdmitted).store.processing.length = 2 ∧
      (Sys.after twoAdmitted).store.processing.length ≤ MaxConcurrent :=
  ⟨reachable_store _ (reachable_after twoAdmitted (by decide)), by decide,
    (processing_bounded (Sys.after twoAdmitted).store
      (reachable_store _ (reachable_after twoAdmitted (by decide)))).1⟩

/-! ## The CPU gate -/

/-- C3: a cycle whose sampled utilization is above `MaxCPUUsage` admits no job and
leaves the whole store (queue and Processing partition included) as it was,
whatever the spare capacity and the queue length; nothing is handed to
`processJob`, and no phase changes. -/
theorem cpu_gate_blocks_admission (cpuUsage : ℚ) (h : cpuUsage > MaxCPUUsage) :
    (∀ s : Store, queueProcessorCycle cpuUsage s = (s, none)) ∧
      ∀ σ : Sys, σ.step (Action.poll cpuUsage) = some σ := by
  have h1 : ∀ s : Store, queueProcessorCycle cpuUsage s = (s, none) :=
    fun s => queueProcessorCycle_closed cpuUsage s (Or.inr (Or.inr h))
  refine ⟨h1, ?_⟩
  intro σ
  simp only [Sys.step, h1]

/-- C3, instance: three queued jobs, nothing processing, utilization 71: the
cycle admits nothing. -/
theorem cpu_gate_blocks_admission_witness :
    (71 : ℚ) > MaxCPUUsage ∧ (Sys.after threeUploads).store.jobs = [0, 1, 2] ∧
      (Sys.after threeUploads).store.processing = [] ∧
      queueProcessorCycle 71 (Sys.after threeUploads).store
        = ((Sys.after threeUploads).store, none) :=
  ⟨by decide, by decide, by decide,
    (cpu_gate_blocks_admission 71 (by decide)).1 (Sys.after threeUploads).store⟩

/-! ## Admission -/

theorem mapSet_fresh (k : String) (v : Nat) (m : List (String × Nat))
    (h : ∀ e ∈ m, e.1 ≠ k) : mapSet k v m = m ++ [(k, v)] := by
  unfold mapSet
  rw [List.filter_eq_self.mpr]
  intro e he
  simpa using h e he

/-- C4: with a free slot, a non-empty queue and utilization at or below the
threshold, one cycle hands exactly the head of the queue to `processJob`, stores it
in the Processing map under its id (as one additional entry when that id was not
a key before), leaves the rest of the queue in order, and changes no job record
apart from queue positions; with an empty queue or a full Processing partition
it changes nothing.  Scenario: three uploads and two cycles leave jobs 1 and 2
processing and job 3 queued at position 1; a further cycle changes nothing; after
job 1 has completed the next cycle admits job 3. -/
theorem poll_admits_head :
    (∀ (cpuUsage : ℚ) (s : Store) (job : Nat) (rest : List Nat),
      s.jobs = job :: rest → s.processing.length < MaxConcurrent →
      cpuUsage ≤ MaxCPUUsage →
        (queueProcessorCycle cpuUsage s).2 = some job ∧
        (queueProcessorCycle cpuUsage s).1.jobs = rest ∧
        (queueProcessorCycle cpuUsage s).1.processing
          = mapSet (deref s.heap job).ID job s.processing ∧
        ((∀ e ∈ s.processing, e.1 ≠ (deref s.heap job).ID) →
          (queueProcessorCycle cpuUsage s).1.processing
            = s.processing ++ [((deref s.heap job).ID, job)]) ∧
        (queueProcessorCycle cpuUsage s).1.completed = s.completed ∧
        (queueProcessorCycle cpuUsage s).1.heap.map clearPos = s.heap.map clearPos) ∧
    (∀ (cpuUsage : ℚ) (s : Store), s.jobs = [] ∨ MaxConcurrent ≤ s.processing.length →
        queueProcessorCycle cpuUsage s = (s, none)) ∧
    ((Sys.init.run (firstCompleted ++ [Action.poll 10])).isSome = true ∧
      (Sys.after twoAdmitted).store.processing = [("job-1", 0), ("job-2", 1)] ∧
      (Sys.after twoAdmitted).store.jobs = [2] ∧
      (deref (Sys.after twoAdmitted).store.heap 2).ID = "job-3" ∧
      (deref (Sys.after twoAdmitted).store.heap 2).QueuePos = 1 ∧
      Sys.after (twoAdmitted ++ [Action.poll 10]) = Sys.after twoAdmitted ∧
      (Sys.after firstCompleted).store.processing = [("job-2", 1)] ∧
      (Sys.after firstCompleted).store.completed = [("job-1", 0)] ∧
      (Sys.after firstCompleted).store.jobs = [2] ∧
      (Sys.after (firstCompleted ++ [Action.poll 10])).store.processing
        = [("job-2", 1), ("job-3", 2)] ∧
      (Sys.after (firstCompleted ++ [Action.poll 10])).store.jobs = []) := by
  refine ⟨?_, ?_, ?_⟩
  · intro cpuUsage s job rest hjobs hproc hcpu
    rw [queueProcessorCycle_open cpuUsage s job rest hjobs hproc hcpu]
    refine ⟨rfl, rfl, rfl, ?_, rfl, ?_⟩
    · intro hfresh
      exact mapSet_fresh _ _ _ hfresh
    · exact map_renumberFrom_field clearPos (fun _ _ => rfl) 0 rest s.heap
  · intro cpuUsage s h
    refine queueProcessorCycle_closed cpuUsage s ?_
    rcases h with h | h
    · exact Or.inl h
    · exact Or.inr (Or.inl h)
  · decide

/-- C4, instance: with three jobs queued and nothing processing, a cycle at
utilization 10 admits the first upload. -/
theorem poll_admits_head_witness :
    (Sys.after threeUploads).store.jobs = 0 :: [1, 2] ∧
      (Sys.after threeUploads).store.processing.length < MaxConcurrent ∧
      (10 : ℚ) ≤ MaxCPUUsage ∧
      (queueProcessorCycle 10 (Sys.after threeUploads).store).2 = some 0 ∧
      (queueProcessorCycle 10 (Sys.after threeUploads).store).1.jobs = [1, 2] :=
  ⟨by decide, by decide, by decide,
    (poll_admits_head.1 10 (Sys.after threeUploads).store 0 [1, 2]
      (by decide) (by decide) (by decide)).1,
    (poll_admits_head.1 10 (Sys.after threeUploads).store 0 [1, 2]
      (by decide) (by decide) (by decide)).2.1⟩

/-! ## The attempts of `processJob` -/

theorem length_heap_callbacks (p : Nat) (vs : List F64) (s : Store) :
    (vs.foldl (fun st v => progressCallback v p st) s).heap.length = s.heap.length := by
  induction vs generalizing s with
  | nil => rfl
  | cons v vs ih =>
    rw [List.foldl_cons, ih]
    simp [progressCallback, length_modifyAt]

theorem length_heap_afterPrimary (env : JobEnv) (p : Nat) (s : Store) :
    (afterPrimary env p s).heap.length = s.heap.length := by
  simp [afterPrimary, length_heap_callbacks, processJobStart, length_modifyAt]

theorem status_processJobFinish (err : Option String) (now p : Nat) (s : Store)
    (hp : p < s.heap.length) :
    (deref (processJobFinish err now p s).heap p).Status
        = (if err.isSome then "failed" else "completed") ∧
      (deref (processJobFinish err now p s).heap p).Error
        = (match err with
          | some e => e
          | none => (deref s.heap p).Error) := by
  cases err with
  | none => simp [processJobFinish, deref_modifyAt_same _ _ _ hp]
  | some e => simp [processJobFinish, deref_modifyAt_same _ _ _ hp]

/-- C5: `processJob` calls the primary conversion exactly once; it calls the
fallback conversion exactly once when the primary returned an error and not at
all otherwise, so at most two calls in total; the job is marked "failed" exactly
when both calls returned an error (the recorded error text is then the one of the
fallback) and "completed" in every other case. -/
theorem attempts_and_outcome (env : JobEnv) (p : Nat) (s : Store) (hp : p < s.heap.length) :
    (processJob env p s).calls.count Strategy.primary = 1 ∧
    (processJob env p s).calls.count Strategy.fallback
      = (if env.primaryResult.err.isSome then 1 else 0) ∧
    (processJob env p s).calls.length ≤ 2 ∧
    ((deref (processJob env p s).store.heap p).Status = "failed" ↔
      env.primaryResult.err.isSome ∧ env.fallbackResult.err.isSome) ∧
    ((deref (processJob env p s).store.heap p).Status = "completed" ↔
      ¬ (env.primaryResult.err.isSome ∧ env.fallbackResult.err.isSome)) ∧
    (∀ e, env.primaryResult.err.isSome → env.fallbackResult.err = some e →
      (deref (processJob env p s).store.heap p).Error = e) := by
  have hp' : p < (afterPrimary env p s).heap.length := by
    rw [length_heap_afterPrimary]; exact hp
  cases h1 : env.primaryResult.err with
  | none =>
    have hst := (status_processJobFinish none env.finishedAt p _ hp').1
    simp [processJob, h1, hst]
  | some e1 =>
    have hst := status_processJobFinish env.fallbackResult.err env.finishedAt p _ hp'
    cases h2 : env.fallbackResult.err with
    | none =>
      rw [h2] at hst
      simp [processJob, h1, hst.1, h2]
    | some e2 =>
      rw [h2] at hst
      simp [processJob, h1, hst.1, hst.2, h2]

/-- C5, instance: the primary encoder exits with an error, the fallback succeeds:
two calls, job completed. -/
theorem attempts_and_outcome_witness :
    0 < (Sys.after twoAdmitted).store.heap.length ∧
      (processJob retryEnv 0 (Sys.after twoAdmitted).store).calls.count Strategy.fallback
        = (if retryEnv.primaryResult.err.isSome then 1 else 0) ∧
      retryEnv.primaryResult.err = some "exit status 1" ∧
      ((deref (processJob retryEnv 0 (Sys.after twoAdmitted).store).store.heap 0).Status
        = "completed" ↔
          ¬ (retryEnv.primaryResult.err.isSome ∧ retryEnv.fallbackResult.err.isSome)) :=
  ⟨by decide,
    (attempts_and_outcome retryEnv 0 (Sys.after twoAdmitted).store (by decide)).2.1,
    by decide,
    (attempts_and_outcome retryEnv 0 (Sys.after twoAdmitted).store (by decide)).2.2.2.2.1⟩

/-! ## The deadline -/

/-- C6, as stated, fails: the primary encoder is killed by the deadline and the
lookup of "ffmpeg" for the fallback command fails; no fallback process is
launched and the job ends "failed", but the recorded error is the lookup error,
not the deadline error of the context. -/
theorem deadline_error_not_timeout :
    deadlineLookupEnv.primary.startErr = none ∧
      deadlineLookupEnv.primary.exit = Exit.killed ∧
      deadlineLookupEnv.ctxDone = true ∧
      (processJob deadlineLookupEnv 0 (Sys.after twoAdmitted).store).launched
        = [Strategy.primary] ∧
      (deref (processJob deadlineLookupEnv 0 (Sys.after twoAdmitted).store).store.heap 0).Status
        = "failed" ∧
      (deref (processJob deadlineLookupEnv 0 (Sys.after twoAdmitted).store).store.heap 0).Error
        = "exec: \x22ffmpeg\x22: cannot run executable found relative to current directory" ∧
      (deref (processJob deadlineLookupEnv 0 (Sys.after twoAdmitted).store).store.heap 0).Error
        ≠ "context deadline exceeded" := by
  decide

/-- C6, amended: when the primary encoder is killed by the deadline, the only
encoder process launched by `processJob` is the primary one (the fallback
conversion returns before starting a process), the job ends "failed", and the
recorded error is "context deadline exceeded" when the lookup of "ffmpeg" for the
fallback command succeeded, and the error of that lookup otherwise. -/
theorem deadline_outcome (env : JobEnv) (p : Nat) (s : Store) (hp : p < s.heap.length)
    (hstart : env.primary.startErr = none) (hkill : env.primary.exit = Exit.killed) :
    (processJob env p s).launched = [Strategy.primary] ∧
    (deref (processJob env p s).store.heap p).Status = "failed" ∧
    (deref (processJob env p s).store.heap p).Error
      = (match env.fallbackLookErr with
        | some e => e
        | none => "context deadline exceeded") ∧
    (processJob env p s).err
      = some (match env.fallbackLookErr with
        | some e => e
        | none => "context deadline exceeded") := by
  have hp' : p < (afterPrimary env p s).heap.length := by
    rw [length_heap_afterPrimary]; exact hp
  have h1 : env.primaryResult.err = some "signal: killed" := by
    simp [JobEnv.primaryResult, convertVideoWithProgress, hstart, hkill, Exit.waitErr]
  have h1l : env.primaryResult.launched = true := by
    simp [JobEnv.primaryResult, convertVideoWithProgress, hstart]
  cases hl : env.fallbackLookErr with
  | some e =>
    have h2 : env.fallbackResult = ⟨some e, [], false⟩ := by
      simp [JobEnv.fallbackResult, fallbackConversion, hl]
    have hst := status_processJobFinish (some e) env.finishedAt p _ hp'
    simp [processJob, h1, h1l, h2, hst.1, hst.2]
  | none =>
    have h2 : env.fallbackResult = ⟨some "context deadline exceeded", [], false⟩ := by
      simp [JobEnv.fallbackResult, JobEnv.ctxDone, fallbackConversion, hl, hstart, hkill]
    have hst := status_processJobFinish (some "context deadline exceeded") env.finishedAt p _ hp'
    simp [processJob, h1, h1l, h2, hst.1, hst.2]

/-- C6, instance of the amended statement: the lookup succeeds and the recorded
error is the deadline error. -/
theorem deadline_outcome_witness :
    0 < (Sys.after twoAdmitted).store.heap.length ∧
      deadlineEnv.primary.startErr = none ∧ deadlineEnv.primary.exit = Exit.killed ∧
      deadlineEnv.fallbackLookErr = none ∧
      (processJob deadlineEnv 0 (Sys.after twoAdmitted).store).launched = [Strategy.primary] ∧
      (deref (processJob deadlineEnv 0 (Sys.after twoAdmitted).store).store.heap 0).Status
        = "failed" ∧
      (deref (processJob deadlineEnv 0 (Sys.after twoAdmitted).store).store.heap 0).Error
        = "context deadline exceeded" :=
  ⟨by decide, by decide, by decide, by decide,
    (deadline_outcome deadlineEnv 0 (Sys.after twoAdmitted).store
      (by decide) (by decide) (by decide)).1,
    (deadline_outcome deadlineEnv 0 (Sys.after twoAdmitted).store
      (by decide) (by decide) (by decide)).2.1,
    (deadline_outcome deadlineEnv 0 (Sys.after twoAdmitted).store
      (by decide) (by decide) (by decide)).2.2.1⟩

/-! ## Rounding to `float64` is monotone -/

theorem bitLenFrom_zero (fuel : Nat) : bitLenFrom fuel 0 = 0 := by
  cases fuel <;> simp [bitLenFrom]

theorem bitLenFrom_spec (fuel n : Nat) (hle : n ≤ fuel) (hn : 0 < n) :
    n < 2 ^ bitLenFrom fuel n ∧ 2 ^ bitLenFrom fuel n ≤ 2 * n := by
  induction fuel generalizing n with
  | zero => omega
  | succ fuel ih =>
    have hne : n ≠ 0 := by omega
    simp only [bitLenFrom, if_neg hne, pow_succ]
    by_cases h2 : n / 2 = 0
    · rw [h2, bitLenFrom_zero]
      have : n = 1 := by omega
      subst this
      simp
    · have := ih (n / 2) (by omega) (by omega)
      generalize 2 ^ bitLenFrom fuel (n / 2) = t at this
      omega

theorem bitLen_spec (n : Nat) (hn : 0 < n) : n < 2 ^ bitLen n ∧ 2 ^ bitLen n ≤ 2 * n :=
  bitLenFrom_spec n n le_rfl hn

theorem floorLog2_spec (x : ℚ) (hx : 0 < x) :
    (2 : ℚ) ^ floorLog2 x ≤ x ∧ x < (2 : ℚ) ^ (floorLog2 x + 1) := by
  have hnum : 0 < x.num := Rat.num_pos.mpr hx
  have ha : 0 < x.num.natAbs := Int.natAbs_pos.mpr (ne_of_gt hnum)
  have hb : 0 < x.den := x.den_pos
  obtain ⟨ha1, ha2⟩ := bitLen_spec _ ha
  obtain ⟨hb1, hb2⟩ := bitLen_spec _ hb
  have hxe : x = (x.num.natAbs : ℚ) / (x.den : ℚ) := by
    have h1 : (x.num.natAbs : ℚ) = (x.num : ℚ) := by
      rw [Nat.cast_natAbs, abs_of_pos hnum]
    rw [h1, Rat.num_div_den]
  have qa1 : (x.num.natAbs : ℚ) < (2 : ℚ) ^ bitLen x.num.natAbs := by exact_mod_cast ha1
  have qa2 : (2 : ℚ) ^ bitLen x.num.natAbs ≤ 2 * (x.num.natAbs : ℚ) := by exact_mod_cast ha2
  have qb1 : (x.den : ℚ) < (2 : ℚ) ^ bitLen x.den := by exact_mod_cast hb1
  have qb2 : (2 : ℚ) ^ bitLen x.den ≤ 2 * (x.den : ℚ) := by exact_mod_cast hb2
  have qa0 : (0 : ℚ) < (x.num.natAbs : ℚ) := by exact_mod_cast ha
  have qb0 : (0 : ℚ) < (x.den : ℚ) := by exact_mod_cast hb
  set A : ℚ := (2 : ℚ) ^ bitLen x.num.natAbs with hA
  set B : ℚ := (2 : ℚ) ^ bitLen x.den with hB
  have hA0 : 0 < A := by positivity
  have hB0 : 0 < B := by positivity
  have hd : (2 : ℚ) ^ ((bitLen x.num.natAbs : Int) - (bitLen x.den : Int)) = A / B := by
    rw [zpow_sub₀ (by norm_num), zpow_natCast, zpow_natCast]
  have hlow : A / B / 2 ≤ x := by
    rw [hxe, div_div, div_le_div_iff₀ (by positivity) qb0]
    nlinarith
  have hupp : x < A / B * 2 := by
    rw [hxe, div_mul_eq_mul_div, div_lt_div_iff₀ qb0 hB0]
    nlinarith
  have habs : |x| = x := abs_of_pos hx
  unfold floorLog2
  simp only [habs, hd]
  split
  · next h =>
    refine ⟨by rw [hd]; exact h, ?_⟩
    rw [zpow_add₀ (by norm_num), hd]
    simpa using hupp
  · next h =>
    constructor
    · rw [zpow_sub₀ (by norm_num), hd]
      simpa using hlow
    · rw [sub_add_cancel, hd]
      exact not_le.mp h

theorem floorLog2_mono (x y : ℚ) (hx : 0 < x) (hxy : x ≤ y) : floorLog2 x ≤ floorLog2 y := by
  have h1 := (floorLog2_spec x hx).1
  have h2 := (floorLog2_spec y (lt_of_lt_of_le hx hxy)).2
  have : (2 : ℚ) ^ floorLog2 x < (2 : ℚ) ^ (floorLog2 y + 1) :=
    lt_of_le_of_lt (le_trans h1 hxy) h2
  have := (zpow_lt_zpow_iff_right₀ (by norm_num : (1 : ℚ) < 2)).mp this
  omega

theorem roundHalfEven_intCast (k : Int) : roundHalfEven (k : ℚ) = k := by
  simp [roundHalfEven]

theorem roundHalfEven_mono (a b : ℚ) (h : a ≤ b) : roundHalfEven a ≤ roundHalfEven b := by
  have hf : ⌊a⌋ ≤ ⌊b⌋ := Int.floor_mono h
  have ha1 : roundHalfEven a ≤ ⌊a⌋ + 1 := by unfold roundHalfEven; split_ifs <;> omega
  have hb1 : ⌊b⌋ ≤ roundHalfEven b := by unfold roundHalfEven; split_ifs <;> omega
  rcases lt_or_eq_of_le hf with hlt | heq
  · omega
  · unfold roundHalfEven
    rw [heq]
    have hab : a - (⌊b⌋ : ℚ) ≤ b - (⌊b⌋ : ℚ) := by linarith
    split_ifs <;> first | omega | (exfalso; linarith)

theorem ulp_pos (x : ℚ) : 0 < ulp x := zpow_pos (by norm_num) _

theorem roundQ_zero : roundQ 0 = 0 := by
  simp [roundQ, roundHalfEven]

theorem roundQ_nonneg (x : ℚ) (hx : 0 ≤ x) : 0 ≤ roundQ x := by
  unfold roundQ
  have h0 : (0 : ℚ) ≤ x / ulp x := div_nonneg hx (le_of_lt (ulp_pos x))
  have := roundHalfEven_mono 0 _ h0
  have h00 : roundHalfEven 0 = 0 := by simpa using roundHalfEven_intCast 0
  rw [h00] at this
  exact mul_nonneg (by exact_mod_cast this) (le_of_lt (ulp_pos x))

theorem roundQ_le_pow (x : ℚ) (hx : 0 < x) :
    roundQ x ≤ (2 : ℚ) ^ (max (floorLog2 x) (-1022) + 1) := by
  have hu := ulp_pos x
  have hspec := (floorLog2_spec x hx).2
  have hle : (2 : ℚ) ^ (floorLog2 x + 1) ≤ (2 : ℚ) ^ (max (floorLog2 x) (-1022) + 1) :=
    zpow_le_zpow_right₀ (by norm_num) (by omega)
  have hpow : (2 : ℚ) ^ (max (floorLog2 x) (-1022) + 1) = ((2 ^ 53 : Int) : ℚ) * ulp x := by
    unfold ulp
    rw [show max (floorLog2 x) (-1022) + 1 = 53 + (max (floorLog2 x) (-1022) - 52) by ring,
      zpow_add₀ (by norm_num)]
    norm_num
  have hm : x / ulp x ≤ ((2 ^ 53 : Int) : ℚ) := by
    rw [div_le_iff₀ hu, ← hpow]
    exact le_of_lt (lt_of_lt_of_le hspec hle)
  have := roundHalfEven_mono _ _ hm
  rw [roundHalfEven_intCast] at this
  rw [hpow]
  unfold roundQ
  exact mul_le_mul_of_nonneg_right (by exact_mod_cast this) (le_of_lt hu)

theorem pow_le_roundQ (x : ℚ) (hx : 0 < x) (he : -1022 ≤ floorLog2 x) :
    (2 : ℚ) ^ floorLog2 x ≤ roundQ x := by
  have hu := ulp_pos x
  have hspec := (floorLog2_spec x hx).1
  have hmax : max (floorLog2 x) (-1022) = floorLog2 x := max_eq_left he
  have hpow : (2 : ℚ) ^ floorLog2 x = ((2 ^ 52 : Int) : ℚ) * ulp x := by
    unfold ulp
    rw [hmax, show floorLog2 x = 52 + (floorLog2 x - 52) by ring, zpow_add₀ (by norm_num)]
    norm_num
  have hm : ((2 ^ 52 : Int) : ℚ) ≤ x / ulp x := by
    rw [le_div_iff₀ hu, ← hpow]
    exact hspec
  have := roundHalfEven_mono _ _ hm
  rw [roundHalfEven_intCast] at this
  rw [hpow]
  unfold roundQ
  exact mul_le_mul_of_nonneg_right (by exact_mod_cast this) (le_of_lt hu)

theorem roundQ_mono (x y : ℚ) (hx : 0 ≤ x) (hxy : x ≤ y) : roundQ x ≤ roundQ y := by
  rcases eq_or_lt_of_le hx with h0 | hpos
  · rw [← h0, roundQ_zero]
    exact roundQ_nonneg y (le_trans hx hxy)
  · have hy : 0 < y := lt_of_lt_of_le hpos hxy
    have hlog := floorLog2_mono x y hpos hxy
    by_cases hE : max (floorLog2 x) (-1022) = max (floorLog2 y) (-1022)
    · have hu : ulp x = ulp y := by unfold ulp; rw [hE]
      unfold roundQ
      rw [hu]
      have := roundHalfEven_mono (x / ulp y) (y / ulp y)
        (div_le_div_of_nonneg_right hxy (le_of_lt (ulp_pos y)))
      exact mul_le_mul_of_nonneg_right (by exact_mod_cast this) (le_of_lt (ulp_pos y))
    · have hlt : max (floorLog2 x) (-1022) + 1 ≤ floorLog2 y := by omega
      have hey : -1022 ≤ floorLog2 y := by omega
      calc roundQ x ≤ (2 : ℚ) ^ (max (floorLog2 x) (-1022) + 1) := roundQ_le_pow x hpos
        _ ≤ (2 : ℚ) ^ floorLog2 y := zpow_le_zpow_right₀ (by norm_num) hlt
        _ ≤ roundQ y := pow_le_roundQ y hy hey

theorem roundF64_zero : roundF64 0 = F64.fin 0 := by
  have h : (0 : ℚ) < 2 ^ 1024 := by positivity
  unfold roundF64
  rw [roundQ_zero, if_neg (not_le.mpr h), if_neg (by linarith)]

theorem roundF64_nonnegLe (x y : ℚ) (hx : 0 ≤ x) (hxy : x ≤ y) :
    NonnegLe (roundF64 x) (roundF64 y) := by
  have h0 := roundQ_nonneg x hx
  have h1 := roundQ_mono x y hx hxy
  have hpos : (0 : ℚ) < 2 ^ 1024 := by positivity
  unfold roundF64
  generalize (2 : ℚ) ^ 1024 = T at hpos ⊢
  split_ifs <;> simp only [NonnegLe] <;> first | trivial | exact ⟨h0, h1⟩ | exact h0 | linarith

theorem roundF64_nonnegLe_posInf (x : ℚ) (hx : 0 ≤ x) : NonnegLe (roundF64 x) F64.posInf := by
  have h0 := roundQ_nonneg x hx
  have hpos : (0 : ℚ) < 2 ^ 1024 := by positivity
  unfold roundF64
  generalize (2 : ℚ) ^ 1024 = T at hpos ⊢
  split_ifs <;> simp only [NonnegLe] <;> first | trivial | exact h0 | linarith

theorem div_nonnegLe (a b : F64) (d : ℚ) (hd : 0 < d) (h : NonnegLe a b) :
    NonnegLe (F64.div a (F64.fin d)) (F64.div b (F64.fin d)) := by
  cases a <;> cases b <;> simp only [NonnegLe] at h <;> try exact h.elim
  · next x y =>
    simp only [F64.div, if_neg (ne_of_gt hd)]
    exact roundF64_nonnegLe _ _ (div_nonneg h.1 (le_of_lt hd))
      (div_le_div_of_nonneg_right h.2 (le_of_lt hd))
  · next x =>
    simp only [F64.div, if_neg (ne_of_gt hd), if_pos (le_of_lt hd)]
    exact roundF64_nonnegLe_posInf _ (div_nonneg h (le_of_lt hd))
  · simp only [F64.div, if_pos (le_of_lt hd), NonnegLe]

theorem mul_nonnegLe (a b : F64) (c : ℚ) (hc : 0 < c) (h : NonnegLe a b) :
    NonnegLe (F64.mul a (F64.fin c)) (F64.mul b (F64.fin c)) := by
  cases a <;> cases b <;> simp only [NonnegLe] at h <;> try exact h.elim
  · next x y =>
    simp only [F64.mul]
    exact roundF64_nonnegLe _ _ (mul_nonneg h.1 (le_of_lt hc))
      (mul_le_mul_of_nonneg_right h.2 (le_of_lt hc))
  · next x =>
    simp only [F64.mul, if_neg (ne_of_gt hc), if_pos hc]
    exact roundF64_nonnegLe_posInf _ (mul_nonneg h (le_of_lt hc))
  · simp only [F64.mul, if_neg (ne_of_gt hc), if_pos hc, NonnegLe]

theorem cap_percentLe (a b : F64) (h : NonnegLe a b) :
    PercentLe (if F64.gt a (F64.fin 100) then F64.fin 100 else a)
      (if F64.gt b (F64.fin 100) then F64.fin 100 else b) := by
  cases a <;> cases b <;> simp only [NonnegLe] at h <;> try exact h.elim
  · next x y =>
    simp only [F64.gt, decide_eq_true_eq]
    split_ifs <;> simp only [PercentLe] <;> refine ⟨?_, ?_, ?_⟩ <;> linarith [h.1, h.2]
  · next x =>
    simp only [F64.gt, decide_eq_true_eq, if_true]
    split_ifs <;> simp only [PercentLe] <;> refine ⟨?_, ?_, ?_⟩ <;> linarith
  · simp [F64.gt, PercentLe]

theorem percentLe_trans (a b c : F64) (hab : PercentLe a b) (hbc : PercentLe b c) :
    PercentLe a c := by
  cases a <;> cases b <;> cases c <;> simp only [PercentLe] at hab hbc ⊢ <;>
    first | exact hab.elim | exact hbc.elim | exact ⟨hab.1, le_trans hab.2.1 hbc.2.1, hbc.2.2⟩

theorem percentLe_hundred (a b : F64) (h : PercentLe a b) : PercentLe a (F64.fin 100) := by
  cases a <;> cases b <;> simp only [PercentLe] at h ⊢ <;>
    first | exact h.elim | exact ⟨h.1, le_trans h.2.1 h.2.2, le_refl _⟩

theorem percentLe_hundred_self : PercentLe (F64.fin 100) (F64.fin 100) := by
  simp only [PercentLe]
  norm_num

theorem percentLe_fin (a b : F64) (h : PercentLe a b) :
    ∃ x y, a = F64.fin x ∧ b = F64.fin y ∧ 0 ≤ x ∧ x ≤ y ∧ y ≤ 100 := by
  cases a <;> cases b <;> simp only [PercentLe] at h <;> try exact h.elim
  next x y => exact ⟨x, y, rfl, rfl, h⟩

theorem floor_hundred : ⌊(100 : ℚ)⌋ = 100 := by
  have h : ⌊((100 : Int) : ℚ)⌋ = 100 := Int.floor_intCast 100
  exact_mod_cast h

theorem goInt_of_percent (x : ℚ) (h0 : 0 ≤ x) (h100 : x ≤ 100) :
    goInt (F64.fin x) = ⌊x⌋ ∧ 0 ≤ ⌊x⌋ ∧ ⌊x⌋ ≤ 100 := by
  have hf0 : (0 : Int) ≤ ⌊x⌋ := Int.floor_nonneg.mpr h0
  have hf1 : ⌊x⌋ ≤ 100 := by
    have := Int.floor_mono h100
    rwa [floor_hundred] at this
  refine ⟨?_, hf0, hf1⟩
  simp only [goInt, if_pos h0]
  rw [if_pos]
  constructor
  · exact le_trans (by norm_num) hf0
  · exact lt_of_le_of_lt hf1 (by norm_num)

theorem goInt_mono (a b : F64) (h : PercentLe a b) : goInt a ≤ goInt b := by
  obtain ⟨x, y, rfl, rfl, h0, hxy, h100⟩ := percentLe_fin a b h
  rw [(goInt_of_percent x h0 (le_trans hxy h100)).1,
    (goInt_of_percent y (le_trans h0 hxy) h100).1]
  exact Int.floor_mono hxy

theorem goInt_zero : goInt (F64.fin 0) = 0 := by
  rw [(goInt_of_percent 0 le_rfl (by norm_num)).1]
  simp

theorem goInt_hundred : goInt (F64.fin 100) = 100 := by
  rw [(goInt_of_percent 100 (by norm_num) le_rfl).1, floor_hundred]

/-! ## Progress values -/

theorem lineProgress_timeMark (duration : F64) (line : String) (n : Int)
    (h : timeMark line = some n) :
    lineProgress duration line
      = if F64.gt duration (F64.fin 0) then some (cappedPercent duration n) else none := by
  unfold timeMark at h
  split at h
  · next hpre => simp only [lineProgress, hpre, if_true, h, cappedPercent]
  · cases h

theorem lineProgress_no_timeMark (duration : F64) (line : String) (h : timeMark line = none) :
    lineProgress duration line = if isEndMark line then some (F64.fin 100) else none := by
  unfold timeMark at h
  split at h
  · next hpre => simp [lineProgress, isEndMark, hpre, h]
  · next hpre =>
    simp only [lineProgress, isEndMark, hpre]
    by_cases hp : HasPrefix line "progress=" = true
    · by_cases he : TrimPrefix line "progress=" = "end" <;> simp [hp, he]
    · simp [hp]

/-- `strconv.ParseInt(s, 10, 64)` only returns values of the 64-bit range. -/
theorem parseInt_bound (s : String) (n : Int) (h : ParseInt s = some n) :
    -2 ^ 63 ≤ n ∧ n < 2 ^ 63 := by
  unfold ParseInt at h
  cases hs : s.data with
  | nil => simp [hs] at h
  | cons c cs =>
    simp only [hs] at h
    cases hu : ParseUint (if c = '+' ∨ c = '-' then cs else c :: cs) with
    | none => simp [hu] at h
    | some un =>
      simp only [hu] at h
      by_cases hneg : c = '-'
      · simp only [hneg, decide_True, Bool.not_true, Bool.false_and, Bool.true_and,
          decide_eq_true_eq, if_true, Bool.false_eq_true, if_false] at h
        split at h
        · cases h
        · have := Option.some.inj h
          omega
      · simp only [hneg, decide_False, Bool.not_false, Bool.true_and, Bool.false_and,
          decide_eq_true_eq, if_false, Bool.false_eq_true] at h
        split at h
        · cases h
        · have := Option.some.inj h
          omega

theorem timeMark_bound (line : String) (n : Int) (h : timeMark line = some n) :
    -2 ^ 63 ≤ n ∧ n < 2 ^ 63 := by
  unfold timeMark at h
  split at h
  · exact parseInt_bound _ n h
  · cases h

theorem roundF64_bound : roundF64 9223372036854775808 = F64.fin 9223372036854775808 := by
  decide!

/-- Rounding a value between 0 and `2 ^ 63` gives a finite value in the same range. -/
theorem roundF64_fin (x : ℚ) (h0 : 0 ≤ x) (h1 : x ≤ 9223372036854775808) :
    ∃ y, roundF64 x = F64.fin y ∧ 0 ≤ y ∧ y ≤ 9223372036854775808 := by
  have h := roundF64_nonnegLe x 9223372036854775808 h0 h1
  rw [roundF64_bound] at h
  cases hr : roundF64 x <;> rw [hr] at h <;> simp only [NonnegLe] at h <;> try exact h.elim
  next y => exact ⟨y, rfl, h⟩

/-- The elapsed time computed from a marker of the 64-bit range is finite. -/
theorem currentTime_fin (n : Int) (h0 : 0 ≤ n) (h1 : n < 2 ^ 63) :
    ∃ y, F64.div (F64.ofInt n) (F64.fin 1000000) = F64.fin y ∧ 0 ≤ y := by
  have hn0 : (0 : ℚ) ≤ (n : ℚ) := by exact_mod_cast h0
  have hn1 : (n : ℚ) ≤ 9223372036854775808 := by
    have : n ≤ 9223372036854775808 := by omega
    exact_mod_cast this
  obtain ⟨x, hx, hx0, hx1⟩ := roundF64_fin (n : ℚ) hn0 hn1
  obtain ⟨y, hy, hy0, _⟩ := roundF64_fin (x / 1000000) (div_nonneg hx0 (by norm_num))
    (le_trans (div_le_self hx0 (by norm_num)) hx1)
  refine ⟨y, ?_, hy0⟩
  rw [F64.ofInt, hx]
  simp only [F64.div, if_neg (by norm_num : (1000000 : ℚ) ≠ 0)]
  exact hy

theorem cappedPercent_posInf (n : Int) (h0 : 0 ≤ n) (h1 : n < 2 ^ 63) :
    cappedPercent F64.posInf n = F64.fin 0 := by
  obtain ⟨y, hy, _⟩ := currentTime_fin n h0 h1
  have h4 : F64.mul (F64.fin 0) (F64.fin 100) = F64.fin 0 := by
    simp only [F64.mul, zero_mul, roundF64_zero]
  have h3 : F64.div (F64.fin y) F64.posInf = F64.fin 0 := rfl
  have h5 : F64.gt (F64.fin 0) (F64.fin 100) = false := by
    simp [F64.gt]
  unfold cappedPercent
  rw [hy, h3, h4, h5]
  rfl

theorem cappedPercent_mono (duration : F64) (hd : F64.gt duration (F64.fin 0) = true)
    (m n : Int) (hm : 0 ≤ m) (h : m ≤ n) (hn : n < 2 ^ 63) :
    PercentLe (cappedPercent duration m) (cappedPercent duration n) := by
  cases duration with
  | nan => simp [F64.gt] at hd
  | negInf => simp [F64.gt] at hd
  | posInf =>
    rw [cappedPercent_posInf m hm (lt_of_le_of_lt h hn),
      cappedPercent_posInf n (le_trans hm h) hn]
    simp [PercentLe]
  | fin d =>
    have hd0 : 0 < d := by simpa [F64.gt] using hd
    unfold cappedPercent
    apply cap_percentLe
    apply mul_nonnegLe _ _ 100 (by norm_num)
    apply div_nonnegLe _ _ d hd0
    apply div_nonnegLe _ _ 1000000 (by norm_num)
    exact roundF64_nonnegLe _ _ (by exact_mod_cast hm) (by exact_mod_cast h)

theorem cappedPercent_zero (duration : F64) (hd : F64.gt duration (F64.fin 0) = true) :
    cappedPercent duration 0 = F64.fin 0 := by
  have h1 : F64.ofInt 0 = F64.fin 0 := by
    simp only [F64.ofInt, Int.cast_zero, roundF64_zero]
  have h2 : F64.div (F64.fin 0) (F64.fin 1000000) = F64.fin 0 := by
    simp only [F64.div, if_neg (by norm_num : (1000000 : ℚ) ≠ 0), zero_div, roundF64_zero]
  have h4 : F64.mul (F64.fin 0) (F64.fin 100) = F64.fin 0 := by
    simp only [F64.mul, zero_mul, roundF64_zero]
  have h5 : F64.gt (F64.fin 0) (F64.fin 100) = false := by
    simp [F64.gt]
  cases duration with
  | nan => simp [F64.gt] at hd
  | negInf => simp [F64.gt] at hd
  | posInf =>
    have h3 : F64.div (F64.fin 0) F64.posInf = F64.fin 0 := rfl
    unfold cappedPercent
    rw [h1, h2, h3, h4, h5]
    rfl
  | fin d =>
    have hd0 : 0 < d := by simpa [F64.gt] using hd
    have h3 : F64.div (F64.fin 0) (F64.fin d) = F64.fin 0 := by
      simp only [F64.div, if_neg (ne_of_gt hd0), zero_div, roundF64_zero]
    simp [cappedPercent, h1, h2, h3, h4, h5]

theorem progress_progressCallback (v : F64) (p : Nat) (s : Store) (hp : p < s.heap.length) :
    (deref (progressCallback v p s).heap p).Progress = goInt v := by
  simp [progressCallback, deref_modifyAt_same _ _ _ hp]

/-! ### Decimal markers are parsed back -/

theorem digitValue_digitChar (d : Nat) (hd : d < 10) : digitValue (Nat.digitChar d) = some d := by
  interval_cases d <;> decide

theorem digitChar_not_sign (d : Nat) (hd : d < 10) :
    Nat.digitChar d ≠ '+' ∧ Nat.digitChar d ≠ '-' := by
  interval_cases d <;> decide

theorem parseDigits_map (bs : List Nat) (hbs : ∀ d ∈ bs, d < 10) (acc : Nat) :
    parseDigits (bs.map Nat.digitChar) acc = some (bs.foldl (fun a d => a * 10 + d) acc) := by
  induction bs generalizing acc with
  | nil => rfl
  | cons b bs ih =>
    simp only [List.map_cons, parseDigits,
      digitValue_digitChar b (hbs b (List.mem_cons_self _ _)), List.foldl_cons]
    exact ih (fun d hd => hbs d (List.mem_cons_of_mem _ hd)) _

theorem foldr_digits (ds : List Nat) :
    ds.foldr (fun d a => a * 10 + d) 0 = Nat.ofDigits 10 ds := by
  induction ds with
  | nil => rfl
  | cons d ds ih =>
    simp only [List.foldr_cons, ih, Nat.ofDigits_cons]
    ring

theorem parseUint_decimalDigits (n : Nat) : ParseUint (decimalDigits n) = some n := by
  unfold decimalDigits
  split
  · next h => subst h; decide
  · next h =>
    have hne : (Nat.digits 10 n).reverse.map Nat.digitChar ≠ [] := by
      simp [Nat.digits_ne_nil_iff_ne_zero, h]
    rw [ParseUint, if_neg hne, parseDigits_map _ (by
      intro d hd
      exact Nat.digits_lt_base (by norm_num) (List.mem_reverse.mp hd)),
      List.foldl_reverse, foldr_digits, Nat.ofDigits_digits]

theorem decimalDigits_head (n : Nat) :
    ∃ c cs, decimalDigits n = c :: cs ∧ c ≠ '+' ∧ c ≠ '-' := by
  unfold decimalDigits
  split
  · exact ⟨'0', [], rfl, by decide, by decide⟩
  · next h =>
    cases hds : (Nat.digits 10 n).reverse with
    | nil =>
      have : Nat.digits 10 n = [] := by simpa using hds
      exact absurd (Nat.digits_eq_nil_iff_eq_zero.mp this) h
    | cons d ds =>
      have hd : d < 10 := Nat.digits_lt_base (by norm_num)
        (List.mem_reverse.mp (hds ▸ List.mem_cons_self _ _))
      exact ⟨Nat.digitChar d, ds.map Nat.digitChar, rfl, digitChar_not_sign d hd⟩

theorem parseInt_formatInt (n : Int) (hlo : -2 ^ 63 ≤ n) (hhi : n < 2 ^ 63) :
    ParseInt (formatInt n) = some n := by
  unfold formatInt
  split
  · next hneg =>
    have hun : n.natAbs ≤ 2 ^ 63 := by omega
    have : ¬ (n.natAbs > 2 ^ 63) := by omega
    have habs : ((n.natAbs : Nat) : Int) = -n := by omega
    simp [ParseInt]
    rw [parseUint_decimalDigits]
    show (if 9223372036854775808 < n.natAbs then none else some (-(n.natAbs : Int))) = some n
    rw [if_neg (by omega), habs, neg_neg]
  · next hneg =>
    obtain ⟨c, cs, hcs, hp, hm⟩ := decimalDigits_head n.toNat
    have hpu := parseUint_decimalDigits n.toNat
    rw [hcs] at hpu
    have hnat : ((n.toNat : Nat) : Int) = n := by omega
    simp [ParseInt, hcs, hp, hm]
    rw [hpu]
    show (if 9223372036854775808 ≤ n.toNat then none else some (n.toNat : Int)) = some n
    rw [if_neg (by omega), hnat]

/-- Every line `out_time_ms=n` with `n` a signed 64-bit integer in decimal is read
by the scanner loop as the marker `n`. -/
theorem timeMark_formatInt (n : Int) (hlo : -2 ^ 63 ≤ n) (hhi : n < 2 ^ 63) :
    HasPrefix ("out_time_ms=" ++ formatInt n) "out_time_ms=" = true ∧
      ParseInt (TrimPrefix ("out_time_ms=" ++ formatInt n) "out_time_ms=") = some n := by
  have hpre : HasPrefix ("out_time_ms=" ++ formatInt n) "out_time_ms=" = true := by
    simp [HasPrefix, String.data_append, List.isPrefixOf_iff_prefix]
  refine ⟨hpre, ?_⟩
  have : TrimPrefix ("out_time_ms=" ++ formatInt n) "out_time_ms=" = formatInt n := by
    simp only [TrimPrefix, hpre, if_true, String.data_append, List.drop_left]
  rw [this]
  exact parseInt_formatInt n hlo hhi


/-! ## The progress trace of `processJob` -/

theorem progressSeen_eq (env : JobEnv) (p : Nat) (s : Store) (hp : p < s.heap.length) :
    progressSeen env p s = 0 :: env.primaryResult.callbacks.map goInt := by
  have key : ∀ (vs : List F64) (st : Store), p < st.heap.length →
      (List.scanl (fun st v => progressCallback v p st) st vs).map
          (fun st => (deref st.heap p).Progress)
        = (deref st.heap p).Progress :: vs.map goInt := by
    intro vs
    induction vs with
    | nil => intro st _; rfl
    | cons v vs ih =>
      intro st hst
      have hst' : p < (progressCallback v p st).heap.length := by
        simp [progressCallback, length_modifyAt, hst]
      rw [List.scanl_cons, List.map_append, ih _ hst', progress_progressCallback v p st hst]
      rfl
  unfold progressSeen
  rw [key _ _ (by simp [processJobStart, length_modifyAt, hp])]
  simp [processJobStart, deref_modifyAt_same _ _ _ hp]

theorem progress_processJob (env : JobEnv) (p : Nat) (s : Store) :
    (processJob env p s).progress = progressSeen env p s := by
  cases h : env.primaryResult.err <;> simp [processJob, h]

theorem callbacks_primaryResult (env : JobEnv) :
    env.primaryResult.callbacks
      = if env.primary.startErr = none then
          env.primary.lines.filterMap (lineProgress env.duration)
        else [] := by
  unfold JobEnv.primaryResult convertVideoWithProgress
  cases h : env.primary.startErr <;> simp

/-- The callback values of `convertVideoWithProgress`, line by line. -/
theorem lineProgress_eq (duration : F64) (hd : F64.gt duration (F64.fin 0) = true)
    (line : String) :
    lineProgress duration line
      = (match timeMark line with
        | some n => some (cappedPercent duration n)
        | none => if isEndMark line then some (F64.fin 100) else none) := by
  cases hm : timeMark line with
  | some n => rw [lineProgress_timeMark duration line n hm, if_pos hd]
  | none => rw [lineProgress_no_timeMark duration line hm]

/-- C8, as stated, fails twice.  For a 1 s input the line `out_time_ms=-1000000`
makes `convertVideoWithProgress` pass -100 to the callback, and `processJob` store
-100 in `job.Progress`: the value is capped at 100 but has no lower clamp.  And
the line `out_time_ms=290000` makes it pass the `float64` next below 29, not the
value 29 of the clamp, so that `job.Progress` becomes 28. -/
theorem progress_not_exact_clamp :
    negativeEnv.duration = F64.fin 1 ∧
      (convertVideoWithProgress negativeEnv.primary negativeEnv.duration).callbacks
        = [F64.fin (-100)] ∧
      (processJob negativeEnv 0 (Sys.after twoAdmitted).store).progress = [0, -100] ∧
      roundingEnv.duration = F64.fin 1 ∧
      (convertVideoWithProgress roundingEnv.primary roundingEnv.duration).callbacks
        = [F64.fin (29 - 1 / 2 ^ 48)] ∧
      max 0 (min ((290000 : ℚ) / 1000000 / 1 * 100) 100) = 29 ∧
      (processJob roundingEnv 0 (Sys.after twoAdmitted).store).progress = [0, 28] := by
  decide!

/-- C8, amended: when the primary encoder is started with a probed duration above
0 and every elapsed-time marker `out_time_ms=n` of its stream has `n ≥ 0`, the
values that `convertVideoWithProgress` passes to the progress callback are, line
by line, the `float64` result of `float64(n) / 1000000.0 / duration * 100`
replaced by 100 when above 100 (and 100 for the end-of-progress line); each is a
finite value `x` in `[0, 100]`; and the values that `processJob` assigns to
`job.Progress` are the initial 0 followed by the integer part `⌊x⌋` of each
callback value, every one of them in `[0, 100]`. -/
theorem progress_value (env : JobEnv) (p : Nat) (s : Store) (hp : p < s.heap.length)
    (hstart : env.primary.startErr = none) (hd : F64.gt env.duration (F64.fin 0) = true)
    (hmarks : ∀ n ∈ env.primary.lines.filterMap timeMark, 0 ≤ n) :
    (convertVideoWithProgress env.primary env.duration).callbacks
      = env.primary.lines.filterMap (fun line =>
          match timeMark line with
          | some n => some (cappedPercent env.duration n)
          | none => if isEndMark line then some (F64.fin 100) else none) ∧
    (∀ v ∈ (convertVideoWithProgress env.primary env.duration).callbacks,
      ∃ x : ℚ, v = F64.fin x ∧ 0 ≤ x ∧ x ≤ 100 ∧ goInt v = ⌊x⌋) ∧
    (processJob env p s).progress
      = 0 :: (convertVideoWithProgress env.primary env.duration).callbacks.map goInt ∧
    (∀ k ∈ (processJob env p s).progress, 0 ≤ k ∧ k ≤ 100) := by
  have hcb : (convertVideoWithProgress env.primary env.duration).callbacks
      = env.primary.lines.filterMap (lineProgress env.duration) := by
    have := callbacks_primaryResult env
    rw [if_pos hstart] at this
    exact this
  have hval : ∀ v ∈ (convertVideoWithProgress env.primary env.duration).callbacks,
      ∃ x : ℚ, v = F64.fin x ∧ 0 ≤ x ∧ x ≤ 100 ∧ goInt v = ⌊x⌋ := by
    intro v hv
    rw [hcb] at hv
    obtain ⟨l, hl, hlv⟩ := List.mem_filterMap.mp hv
    cases hm : timeMark l with
    | some n =>
      have hn : 0 ≤ n := hmarks n (List.mem_filterMap.mpr ⟨l, hl, hm⟩)
      rw [lineProgress_timeMark env.duration l n hm, if_pos hd] at hlv
      obtain ⟨x, y, hx, hy, h0, hxy, h100⟩ :=
        percentLe_fin _ _ (cappedPercent_mono env.duration hd n n hn le_rfl
          (timeMark_bound l n hm).2)
      have hv : v = F64.fin x := by rw [← Option.some.inj hlv, hx]
      exact ⟨x, hv, h0, le_trans hxy h100,
        by rw [hv]; exact (goInt_of_percent x h0 (le_trans hxy h100)).1⟩
    | none =>
      rw [lineProgress_no_timeMark env.duration l hm] at hlv
      split at hlv
      · exact ⟨100, (Option.some.inj hlv).symm, by norm_num, le_rfl,
          by rw [← Option.some.inj hlv, goInt_hundred, floor_hundred]⟩
      · cases hlv
  have hprog : (processJob env p s).progress
      = 0 :: (convertVideoWithProgress env.primary env.duration).callbacks.map goInt := by
    rw [progress_processJob, progressSeen_eq env p s hp]
    rfl
  refine ⟨?_, hval, hprog, ?_⟩
  · rw [hcb]
    congr 1
    funext line
    exact lineProgress_eq env.duration hd line
  · intro k hk
    rw [hprog] at hk
    rcases List.mem_cons.mp hk with hk | hk
    · subst hk
      exact ⟨le_rfl, by norm_num⟩
    · obtain ⟨v, hv, rfl⟩ := List.mem_map.mp hk
      obtain ⟨x, hvx, h0, h100, _⟩ := hval v hv
      rw [hvx]
      have := goInt_of_percent x h0 h100
      rw [this.1]
      exact this.2

/-- C8, instance of the amended statement: markers at 2 s and 4 s of an 8 s input
give the callback values 25 and 50. -/
theorem progress_value_witness :
    0 < (Sys.after twoAdmitted).store.heap.length ∧
      deadlineEnv.primary.startErr = none ∧
      F64.gt deadlineEnv.duration (F64.fin 0) = true ∧
      (∀ n ∈ deadlineEnv.primary.lines.filterMap timeMark, 0 ≤ n) ∧
      (convertVideoWithProgress deadlineEnv.primary deadlineEnv.duration).callbacks
        = [F64.fin 25, F64.fin 50] ∧
      (processJob deadlineEnv 0 (Sys.after twoAdmitted).store).progress
        = 0 :: (convertVideoWithProgress deadlineEnv.primary
            deadlineEnv.duration).callbacks.map goInt ∧
      (∀ k ∈ (processJob deadlineEnv 0 (Sys.after twoAdmitted).store).progress,
        0 ≤ k ∧ k ≤ 100) :=
  ⟨by decide, by decide, by decide!, by decide, by decide!,
    (progress_value deadlineEnv 0 (Sys.after twoAdmitted).store
      (by decide) (by decide) (by decide!) (by decide)).2.2.1,
    (progress_value deadlineEnv 0 (Sys.after twoAdmitted).store
      (by decide) (by decide) (by decide!) (by decide)).2.2.2⟩

/-! ## Monotonicity of progress -/

/-- Without elapsed-time markers every callback value is 100. -/
theorem callbacks_no_marks (duration : F64) (lines : List String)
    (h : ∀ l ∈ lines, timeMark l = none) :
    ∀ v ∈ lines.filterMap (lineProgress duration), v = F64.fin 100 := by
  intro v hv
  obtain ⟨l, hl, hlv⟩ := List.mem_filterMap.mp hv
  rw [lineProgress_no_timeMark duration l (h l hl)] at hlv
  split at hlv
  · exact (Option.some.inj hlv).symm
  · cases hlv

/-- With a non-positive duration every callback value is 100. -/
theorem callbacks_no_duration (duration : F64) (hd : ¬ F64.gt duration (F64.fin 0) = true)
    (lines : List String) :
    ∀ v ∈ lines.filterMap (lineProgress duration), v = F64.fin 100 := by
  intro v hv
  obtain ⟨l, _, hlv⟩ := List.mem_filterMap.mp hv
  cases hm : timeMark l with
  | none =>
    rw [lineProgress_no_timeMark duration l hm] at hlv
    split at hlv
    · exact (Option.some.inj hlv).symm
    · cases hlv
  | some n =>
    rw [lineProgress_timeMark duration l n hm, if_neg hd] at hlv
    cases hlv

theorem pairwise_of_all_eq (vs : List F64) (h : ∀ v ∈ vs, v = F64.fin 100) :
    vs.Pairwise PercentLe := by
  rw [List.pairwise_iff_forall_sublist]
  intro a b hab
  have ha := h a (hab.subset (by simp))
  have hb := h b (hab.subset (by simp))
  rw [ha, hb]
  exact percentLe_hundred_self

/-- Callback values of a well-ordered stream: they start at or above the
percentage of the last marker seen, stay at or below 100 and never decrease. -/
theorem callbacks_sorted (duration : F64) (hd : F64.gt duration (F64.fin 0) = true)
    (lines : List String) (m0 : Int) (hm0 : 0 ≤ m0) (hm1 : m0 < 2 ^ 63)
    (hmarks : List.Sorted (· ≤ ·) (m0 :: lines.filterMap timeMark))
    (hend : lines.Pairwise (fun a b => isEndMark a = true → timeMark b = none)) :
    (∀ v ∈ lines.filterMap (lineProgress duration),
        PercentLe (cappedPercent duration m0) v) ∧
      (lines.filterMap (lineProgress duration)).Pairwise PercentLe := by
  induction lines generalizing m0 with
  | nil => simp
  | cons l ls ih =>
    rw [List.pairwise_cons] at hend
    cases hm : timeMark l with
    | some n =>
      rw [List.filterMap_cons_some hm] at hmarks
      have hle : m0 ≤ n := List.rel_of_sorted_cons hmarks n (List.mem_cons_self _ _)
      have hn1 : n < 2 ^ 63 := (timeMark_bound l n hm).2
      have htail := ih n (le_trans hm0 hle) hn1 (List.Sorted.of_cons hmarks) hend.2
      have hl : lineProgress duration l = some (cappedPercent duration n) := by
        rw [lineProgress_timeMark duration l n hm, if_pos hd]
      rw [List.filterMap_cons_some hl]
      constructor
      · intro v hv
        rcases List.mem_cons.mp hv with hv | hv
        · subst hv
          exact cappedPercent_mono duration hd m0 n hm0 hle hn1
        · exact percentLe_trans _ _ _ (cappedPercent_mono duration hd m0 n hm0 hle hn1)
            (htail.1 v hv)
      · exact List.pairwise_cons.mpr ⟨fun v hv => htail.1 v hv, htail.2⟩
    | none =>
      rw [List.filterMap_cons_none hm] at hmarks
      have hl := lineProgress_no_timeMark duration l hm
      have hself : PercentLe (cappedPercent duration m0) (F64.fin 100) :=
        percentLe_hundred _ _ (cappedPercent_mono duration hd m0 m0 hm0 le_rfl hm1)
      by_cases he : isEndMark l = true
      · rw [if_pos he] at hl
        rw [List.filterMap_cons_some hl]
        have hall := callbacks_no_marks duration ls (hend.1 · · he)
        constructor
        · intro v hv
          rcases List.mem_cons.mp hv with hv | hv
          · subst hv; exact hself
          · rw [hall v hv]; exact hself
        · exact List.pairwise_cons.mpr
            ⟨fun v hv => (hall v hv).symm ▸ percentLe_hundred_self,
              pairwise_of_all_eq _ hall⟩
      · rw [if_neg he] at hl
        rw [List.filterMap_cons_none hl]
        exact ih m0 hm0 hm1 hmarks hend.2

theorem isEndMark_iff (line : String) : isEndMark line = true ↔ line = "progress=end" := by
  constructor
  · intro h
    simp only [isEndMark, Bool.and_eq_true, decide_eq_true_eq] at h
    obtain ⟨⟨_, hp⟩, he⟩ := h
    simp only [TrimPrefix, hp, if_true] at he
    obtain ⟨t, ht⟩ := List.isPrefixOf_iff_prefix.mp hp
    have hd : line.data.drop "progress=".data.length = t := by
      rw [← ht]; exact List.drop_left _ _
    rw [hd] at he
    have ht' : t = "end".data := by rw [← he]
    apply String.ext
    rw [← ht, ht']
    rfl
  · intro h
    subst h
    decide

/-- C9, as stated, fails: a stream whose elapsed-time markers go backwards makes
`job.Progress` decrease while the job is processing. -/
theorem progress_can_decrease :
    (processJob backwardsEnv 0 (Sys.after twoAdmitted).store).progress = [0, 50, 25] ∧
      ¬ List.Sorted (· ≤ ·)
        (processJob backwardsEnv 0 (Sys.after twoAdmitted).store).progress := by
  have h : (processJob backwardsEnv 0 (Sys.after twoAdmitted).store).progress = [0, 50, 25] := by
    decide!
  rw [h]
  exact ⟨rfl, by decide⟩

/-- C9, amended: when the elapsed-time markers of the stream are non-negative and
non-decreasing and no marker follows an end-of-progress line, the values of
`job.Progress` while the job is processing never decrease. -/
theorem progress_monotone (env : JobEnv) (p : Nat) (s : Store) (hp : p < s.heap.length)
    (hmarks : List.Sorted (· ≤ ·) (0 :: env.primary.lines.filterMap timeMark))
    (hend : env.primary.lines.Pairwise (fun a b => a = "progress=end" → timeMark b = none)) :
    List.Sorted (· ≤ ·) (processJob env p s).progress := by
  have hend : env.primary.lines.Pairwise (fun a b => isEndMark a = true → timeMark b = none) :=
    hend.imp (fun hab he => hab ((isEndMark_iff _).mp he))
  rw [progress_processJob, progressSeen_eq env p s hp, callbacks_primaryResult]
  have hcb :
      (∀ v ∈ env.primary.lines.filterMap (lineProgress env.duration),
        PercentLe (F64.fin 0) v) ∧
      (env.primary.lines.filterMap (lineProgress env.duration)).Pairwise PercentLe := by
    by_cases hd : F64.gt env.duration (F64.fin 0) = true
    · have h := callbacks_sorted env.duration hd env.primary.lines 0 le_rfl (by norm_num)
        hmarks hend
      rw [cappedPercent_zero env.duration hd] at h
      exact h
    · have h := callbacks_no_duration env.duration hd env.primary.lines
      refine ⟨fun v hv => ?_, pairwise_of_all_eq _ h⟩
      rw [h v hv]
      simp only [PercentLe]
      norm_num
  split
  · refine List.pairwise_cons.mpr ⟨?_, ?_⟩
    · intro b hb
      obtain ⟨v, hv, rfl⟩ := List.mem_map.mp hb
      have := goInt_mono (F64.fin 0) v (hcb.1 v hv)
      rwa [goInt_zero] at this
    · exact List.Pairwise.map goInt (fun a b hab => goInt_mono a b hab) hcb.2
  · simp [List.Sorted]

/-- C9, instance of the amended statement: markers at 2 s and 4 s of an 8 s input,
then nothing more. -/
theorem progress_monotone_witness :
    0 < (Sys.after twoAdmitted).store.heap.length ∧
      List.Sorted (· ≤ ·) (0 :: deadlineEnv.primary.lines.filterMap timeMark) ∧
      deadlineEnv.primary.lines.Pairwise (fun a b => a = "progress=end" → timeMark b = none) ∧
      List.Sorted (· ≤ ·) (processJob deadlineEnv 0 (Sys.after twoAdmitted).store).progress ∧
      (processJob deadlineEnv 0 (Sys.after twoAdmitted).store).progress = [0, 25, 50] :=
  ⟨by decide, by decide, by decide,
    progress_monotone deadlineEnv 0 (Sys.after twoAdmitted).store (by decide) (by decide)
      (by decide),
    by decide!⟩

/-! ## A failed duration probe -/

theorem lineProgress_zero (line : String) :
    lineProgress (F64.fin 0) line
      = if line = "progress=end" then some (F64.fin 100) else none := by
  cases hm : timeMark line with
  | none =>
    rw [lineProgress_no_timeMark (F64.fin 0) line hm]
    by_cases he : isEndMark line = true
    · rw [if_pos he, if_pos ((isEndMark_iff line).mp he)]
    · rw [if_neg he, if_neg (fun h => he ((isEndMark_iff line).mpr h))]
  | some n =>
    rw [lineProgress_timeMark (F64.fin 0) line n hm, if_neg (by simp [F64.gt])]
    have hne : line ≠ "progress=end" := by
      intro h
      subst h
      have hnone : timeMark "progress=end" = none := by decide
      rw [hnone] at hm
      cases hm
    rw [if_neg hne]

theorem callbacks_zero_duration (lines : List String) :
    lines.filterMap (lineProgress (F64.fin 0))
      = List.replicate (lines.count "progress=end") (F64.fin 100) := by
  induction lines with
  | nil => rfl
  | cons l ls ih =>
    by_cases h : l = "progress=end"
    · have hl : lineProgress (F64.fin 0) l = some (F64.fin 100) := by
        rw [lineProgress_zero, if_pos h]
      rw [List.filterMap_cons_some hl, ih, h, List.count_cons_self, List.replicate_succ]
    · have hl : lineProgress (F64.fin 0) l = none := by rw [lineProgress_zero, if_neg h]
      rw [List.filterMap_cons_none hl, ih, List.count_cons_of_ne (fun e => h e.symm)]

/-- C10: when the duration probe fails the duration is 0; then the scanner loop
calls the progress callback exactly for the lines equal to `progress=end`, always
with the value 100, so `job.Progress` is 0 until the first such line and 100 from
then on; and when the encoder exits successfully the fallback is not called and
the job ends "completed" with progress 100. -/
theorem probe_failure_progress (env : JobEnv) (p : Nat) (s : Store) (hp : p < s.heap.length)
    (hprobe : env.probe = none) :
    env.duration = F64.fin 0 ∧
    (∀ line, lineProgress env.duration line
      = if line = "progress=end" then some (F64.fin 100) else none) ∧
    (env.primary.startErr = none →
      env.primaryResult.callbacks
        = List.replicate (env.primary.lines.count "progress=end") (F64.fin 100) ∧
      (processJob env p s).progress
        = 0 :: List.replicate (env.primary.lines.count "progress=end") 100) ∧
    (env.primary.startErr = none → env.primary.exit = Exit.success →
      (processJob env p s).calls = [Strategy.primary] ∧
      (deref (processJob env p s).store.heap p).Status = "completed" ∧
      (deref (processJob env p s).store.heap p).Progress = 100) := by
  have hd : env.duration = F64.fin 0 := by simp [JobEnv.duration, hprobe]
  have hp' : p < (afterPrimary env p s).heap.length := by
    rw [length_heap_afterPrimary]; exact hp
  refine ⟨hd, ?_, ?_, ?_⟩
  · intro line
    rw [hd]
    exact lineProgress_zero line
  · intro hstart
    have hcb : env.primaryResult.callbacks
        = List.replicate (env.primary.lines.count "progress=end") (F64.fin 100) := by
      rw [callbacks_primaryResult, if_pos hstart, hd, callbacks_zero_duration]
    refine ⟨hcb, ?_⟩
    rw [progress_processJob, progressSeen_eq env p s hp, hcb, List.map_replicate,
      goInt_hundred]
  · intro hstart hexit
    have h1 : env.primaryResult.err = none := by
      simp [JobEnv.primaryResult, convertVideoWithProgress, hstart, hexit, Exit.waitErr]
    simp [processJob, h1, processJobFinish, deref_modifyAt_same _ _ _ hp']

/-- C10, instance: the probe fails, the stream carries two markers and the end
line, the encoder succeeds. -/
theorem probe_failure_progress_witness :
    0 < (Sys.after twoAdmitted).store.heap.length ∧ probeFailedEnv.probe = none ∧
      probeFailedEnv.primary.startErr = none ∧ probeFailedEnv.primary.exit = Exit.success ∧
      (processJob probeFailedEnv 0 (Sys.after twoAdmitted).store).progress = [0, 100] ∧
      (deref (processJob probeFailedEnv 0 (Sys.after twoAdmitted).store).store.heap 0).Status
        = "completed" := by
  have h := probe_failure_progress probeFailedEnv 0 (Sys.after twoAdmitted).store
    (by decide) (by decide)
  refine ⟨by decide, by decide, by decide, by decide, ?_, ?_⟩
  · rw [(h.2.2.1 (by decide)).2]
    decide
  · exact (h.2.2.2 (by decide) (by decide)).2.1

/-! ## Partitions and lifecycle -/

theorem getElem?_set_self_of_some {α : Type} (l : List α) (p : Nat) (a b : α)
    (h : l[p]? = some a) : (l.set p b)[p]? = some b := by
  have hp : p < l.length := (List.getElem?_eq_some.mp h).1
  rw [List.getElem?_set, if_pos rfl, if_pos hp]

theorem getElem?_set_other {α : Type} (l : List α) (p q : Nat) (b : α) (h : q ≠ p) :
    (l.set p b)[q]? = l[q]? :=
  List.getElem?_set_ne (fun e => h e.symm)

theorem uniq_append (ids : List String) (k0 : String) (hfresh : k0 ∉ ids) (h : Uniq ids) :
    Uniq (ids ++ [k0]) := by
  intro p q k hp hq
  rw [List.getElem?_append] at hp hq
  by_cases h1 : p < ids.length
  · rw [if_pos h1] at hp
    by_cases h2 : q < ids.length
    · rw [if_pos h2] at hq
      exact h p q k hp hq
    · rw [if_neg h2] at hq
      have hk : k = k0 := by
        have := List.getElem?_mem hq
        simpa using this
      exact absurd (hk ▸ List.getElem?_mem hp) hfresh
  · rw [if_neg h1] at hp
    have hk : k = k0 := by
      have := List.getElem?_mem hp
      simpa using this
    by_cases h2 : q < ids.length
    · rw [if_pos h2] at hq
      exact absurd (hk ▸ List.getElem?_mem hq) hfresh
    · rw [if_neg h2] at hq
      have e1 : p - ids.length = 0 := by
        by_contra hne
        obtain ⟨n, hn⟩ := Nat.exists_eq_succ_of_ne_zero hne
        rw [hn] at hp
        simp at hp
      have e2 : q - ids.length = 0 := by
        by_contra hne
        obtain ⟨n, hn⟩ := Nat.exists_eq_succ_of_ne_zero hne
        rw [hn] at hq
        simp at hq
      omega

theorem queuedInv_same (ph : List Phase) (jobs : List Nat) (p : Nat) (a b : Phase)
    (ha : ph[p]? = some a) (hna : a ≠ Phase.queued) (hnb : b ≠ Phase.queued)
    (h : QueuedInv ph jobs) : QueuedInv (ph.set p b) jobs := by
  intro q
  by_cases hq : q = p
  · subst hq
    rw [getElem?_set_self_of_some ph q a b ha, h q, ha]
    constructor
    · intro e; exact absurd (Option.some.inj e) hna
    · intro e; exact absurd (Option.some.inj e) hnb
  · rw [getElem?_set_other ph p q b hq]
    exact h q

theorem queuedInv_pop (ph : List Phase) (p : Nat) (rest : List Nat) (b : Phase)
    (hnd : (p :: rest).Nodup) (hnb : b ≠ Phase.queued) (h : QueuedInv ph (p :: rest)) :
    QueuedInv (ph.set p b) rest := by
  have hp : ph[p]? = some Phase.queued := (h p).mp (List.mem_cons_self _ _)
  have hnot : p ∉ rest := (List.nodup_cons.mp hnd).1
  intro q
  by_cases hq : q = p
  · subst hq
    rw [getElem?_set_self_of_some ph q _ b hp]
    constructor
    · intro e; exact absurd e hnot
    · intro e; exact absurd (Option.some.inj e) hnb
  · rw [getElem?_set_other ph p q b hq, ← h q]
    constructor
    · intro e; exact List.mem_cons_of_mem _ e
    · intro e
      rcases List.mem_cons.mp e with e | e
      · exact absurd e hq
      · exact e

theorem queuedInv_append (ph : List Phase) (jobs : List Nat) (h : QueuedInv ph jobs) :
    QueuedInv (ph ++ [Phase.queued]) (jobs ++ [ph.length]) := by
  intro q
  rw [List.mem_append, List.mem_singleton, List.getElem?_append]
  by_cases hq : q < ph.length
  · rw [if_pos hq, h q]
    constructor
    · rintro (e | e)
      · exact e
      · omega
    · intro e; exact Or.inl e
  · rw [if_neg hq, h q]
    have hnone : ph[q]? = none := List.getElem?_eq_none (Nat.le_of_not_lt hq)
    rw [hnone]
    constructor
    · rintro (e | e)
      · cases e
      · subst e; simp
    · intro e
      right
      by_contra hne
      have : q - ph.length ≠ 0 := by omega
      obtain ⟨n, hn⟩ := Nat.exists_eq_succ_of_ne_zero this
      rw [hn] at e
      simp at e

theorem mapInv_same (S : Phase → Prop) (ph : List Phase) (ids : List String)
    (m : List (String × Nat)) (p : Nat) (a b : Phase) (ha : ph[p]? = some a)
    (hab : S a ↔ S b) (h : MapInv S ph ids m) : MapInv S (ph.set p b) ids m := by
  intro k q
  rw [h k q]
  by_cases hq : q = p
  · subst hq
    rw [getElem?_set_self_of_some ph q a b ha, ha]
    constructor
    · rintro ⟨⟨x, hx, hS⟩, hk⟩
      cases hx
      exact ⟨⟨b, rfl, hab.mp hS⟩, hk⟩
    · rintro ⟨⟨x, hx, hS⟩, hk⟩
      cases hx
      exact ⟨⟨a, rfl, hab.mpr hS⟩, hk⟩
  · rw [getElem?_set_other ph p q b hq]

theorem mapInv_insert (S : Phase → Prop) (ph : List Phase) (ids : List String)
    (m : List (String × Nat)) (p : Nat) (a b : Phase) (k0 : String) (hu : Uniq ids)
    (ha : ph[p]? = some a) (hna : ¬ S a) (hb : S b) (hk0 : ids[p]? = some k0)
    (h : MapInv S ph ids m) : MapInv S (ph.set p b) ids (mapSet k0 p m) := by
  intro k q
  rw [mem_mapSet, h k q]
  by_cases hq : q = p
  · subst hq
    rw [getElem?_set_self_of_some ph q a b ha, ha, hk0]
    constructor
    · rintro (⟨⟨⟨x, hx, hS⟩, _⟩, _⟩ | e)
      · cases hx; exact absurd hS hna
      · cases e; exact ⟨⟨b, rfl, hb⟩, rfl⟩
    · rintro ⟨_, hk⟩
      cases hk
      exact Or.inr rfl
  · rw [getElem?_set_other ph p q b hq]
    constructor
    · rintro (⟨hold, _⟩ | e)
      · exact hold
      · exact absurd (Prod.mk.inj e).2 hq
    · intro hold
      refine Or.inl ⟨hold, ?_⟩
      intro hk
      exact hq (hu q p k0 (hk ▸ hold.2) hk0)

theorem mapInv_delete (S : Phase → Prop) (ph : List Phase) (ids : List String)
    (m : List (String × Nat)) (p : Nat) (a b : Phase) (k0 : String) (hu : Uniq ids)
    (ha : ph[p]? = some a) (hb : ¬ S b) (hk0 : ids[p]? = some k0)
    (h : MapInv S ph ids m) : MapInv S (ph.set p b) ids (mapDelete k0 m) := by
  intro k q
  rw [mem_mapDelete, h k q]
  by_cases hq : q = p
  · subst hq
    rw [getElem?_set_self_of_some ph q a b ha, ha, hk0]
    constructor
    · rintro ⟨⟨_, hk⟩, hne⟩
      exact absurd (Option.some.inj hk).symm hne
    · rintro ⟨⟨x, hx, hS⟩, _⟩
      cases hx; exact absurd hS hb
  · rw [getElem?_set_other ph p q b hq]
    constructor
    · rintro ⟨hold, _⟩
      exact hold
    · intro hold
      refine ⟨hold, ?_⟩
      intro hk
      exact hq (hu q p k0 (hk ▸ hold.2) hk0)

theorem mapInv_delete_other (S : Phase → Prop) (ph : List Phase) (ids : List String)
    (m : List (String × Nat)) (p : Nat) (a : Phase) (k0 : String) (hu : Uniq ids)
    (ha : ph[p]? = some a) (hna : ¬ S a) (hk0 : ids[p]? = some k0)
    (h : MapInv S ph ids m) : MapInv S ph ids (mapDelete k0 m) := by
  intro k q
  rw [mem_mapDelete, h k q]
  constructor
  · rintro ⟨hold, _⟩
    exact hold
  · intro hold
    refine ⟨hold, ?_⟩
    intro hk
    have hqp : q = p := hu q p k0 (hk ▸ hold.2) hk0
    obtain ⟨⟨x, hx, hS⟩, _⟩ := hold
    rw [hqp, ha] at hx
    cases hx
    exact hna hS

theorem mapInv_append (S : Phase → Prop) (ph : List Phase) (ids : List String)
    (m : List (String × Nat)) (x0 : Phase) (k0 : String) (hlen : ph.length = ids.length)
    (hx0 : ¬ S x0) (h : MapInv S ph ids m) : MapInv S (ph ++ [x0]) (ids ++ [k0]) m := by
  intro k q
  rw [h k q, List.getElem?_append, List.getElem?_append, hlen]
  by_cases hq : q < ids.length
  · rw [if_pos hq, if_pos hq]
  · rw [if_neg hq, if_neg hq]
    have h1 : ph[q]? = none := List.getElem?_eq_none (by omega)
    rw [h1]
    constructor
    · rintro ⟨⟨x, hx, _⟩, _⟩
      cases hx
    · rintro ⟨⟨x, hx, hS⟩, _⟩
      have hx' : x ∈ [x0] := List.getElem?_mem hx
      rw [List.mem_singleton] at hx'
      exact absurd (hx' ▸ hS) hx0

theorem failedInv_set (ph : List Phase) (sts : List String) (p : Nat) (b : Phase)
    (v : String) (hlen : ph.length = sts.length)
    (hv : v = "failed" ↔ b = Phase.failed) (h : FailedInv ph sts) :
    FailedInv (ph.set p b) (sts.set p v) := by
  intro q
  rw [List.getElem?_set, List.getElem?_set, hlen]
  by_cases hq : p = q
  · rw [if_pos hq, if_pos hq]
    by_cases hp : p < sts.length
    · rw [if_pos hp, if_pos hp]
      constructor
      · intro e; rw [hv.mp (Option.some.inj e)]
      · intro e; rw [hv.mpr (Option.some.inj e)]
    · rw [if_neg hp, if_neg hp]
      constructor <;> intro e <;> cases e
  · rw [if_neg hq, if_neg hq]
    exact h q

theorem failedInv_phase (ph : List Phase) (sts : List String) (p : Nat) (a b : Phase)
    (ha : ph[p]? = some a) (hna : a ≠ Phase.failed) (hnb : b ≠ Phase.failed)
    (h : FailedInv ph sts) : FailedInv (ph.set p b) sts := by
  intro q
  rw [h q]
  by_cases hq : q = p
  · subst hq
    rw [getElem?_set_self_of_some ph q a b ha, ha]
    constructor
    · intro e; exact absurd (Option.some.inj e) hna
    · intro e; exact absurd (Option.some.inj e) hnb
  · rw [getElem?_set_other ph p q b hq]

theorem failedInv_append (ph : List Phase) (sts : List String) (v : String)
    (hlen : ph.length = sts.length) (hv : v ≠ "failed") (h : FailedInv ph sts) :
    FailedInv (ph ++ [Phase.queued]) (sts ++ [v]) := by
  intro q
  rw [List.getElem?_append, List.getElem?_append, hlen]
  by_cases hq : q < sts.length
  · rw [if_pos hq, if_pos hq]
    exact h q
  · rw [if_neg hq, if_neg hq]
    constructor
    · intro e
      have e' : "failed" ∈ [v] := List.getElem?_mem e
      rw [List.mem_singleton] at e'
      exact absurd e'.symm hv
    · intro e
      have e' : Phase.failed ∈ [Phase.queued] := List.getElem?_mem e
      rw [List.mem_singleton] at e'
      cases e'

/-! ### Effect of each step on ids and statuses -/

theorem map_modifyAt_set {α : Type} (g : Job → α) (f : Job → Job) (v : α)
    (hf : ∀ j, g (f j) = v) (heap : List Job) (p : Nat) :
    (modifyAt f heap p).map g = (heap.map g).set p v := by
  induction heap generalizing p with
  | nil => rfl
  | cons j js ih =>
    cases p with
    | zero => simp [modifyAt, hf]
    | succ p => simp [modifyAt, ih]

theorem ids_enqueue (job : Job) (s : Store) : (enqueue job s).ids = s.ids ++ [job.ID] := by
  simp only [Store.ids, enqueue, renumber]
  rw [map_renumberFrom_field Job.ID (fun _ _ => rfl)]
  simp

theorem statuses_enqueue (job : Job) (s : Store) :
    (enqueue job s).statuses = s.statuses ++ [job.Status] := by
  simp only [Store.statuses, enqueue, renumber]
  rw [map_renumberFrom_field Job.Status (fun _ _ => rfl)]
  simp

theorem length_heap_enqueue (job : Job) (s : Store) :
    (enqueue job s).heap.length = s.heap.length + 1 := by
  simp [enqueue, renumber, length_renumberFrom]

theorem ids_processJobStart (now p : Nat) (s : Store) :
    (processJobStart now p s).ids = s.ids := by
  simp only [Store.ids, processJobStart]
  apply map_modifyAt_field
  intro j; rfl

theorem statuses_processJobStart (now p : Nat) (s : Store) :
    (processJobStart now p s).statuses = s.statuses.set p "processing" := by
  simp only [Store.statuses, processJobStart]
  apply map_modifyAt_set
  intro j; rfl

theorem ids_progressCallback (v : F64) (p : Nat) (s : Store) :
    (progressCallback v p s).ids = s.ids := by
  simp only [Store.ids, progressCallback]
  apply map_modifyAt_field
  intro j; rfl

theorem statuses_progressCallback (v : F64) (p : Nat) (s : Store) :
    (progressCallback v p s).statuses = s.statuses := by
  simp only [Store.statuses, progressCallback]
  apply map_modifyAt_field
  intro j; rfl

theorem ids_processJobFinish (err : Option String) (now p : Nat) (s : Store) :
    (processJobFinish err now p s).ids = s.ids := by
  cases err <;>
  · simp only [Store.ids, processJobFinish]
    apply map_modifyAt_field
    intro j; rfl

theorem statuses_processJobFinish (err : Option String) (now p : Nat) (s : Store) :
    (processJobFinish err now p s).statuses
      = s.statuses.set p (if err.isSome then "failed" else "completed") := by
  cases err <;>
  · simp only [Store.statuses, processJobFinish]
    apply map_modifyAt_set
    intro j; rfl

theorem ids_getElem?_of_lt (s : Store) (p : Nat) (hp : p < s.heap.length) :
    s.ids[p]? = some (deref s.heap p).ID := by
  simp [Store.ids, deref, List.getD_eq_getElem?_getD, List.getElem?_eq_getElem hp]

theorem statuses_getElem?_of_lt (s : Store) (p : Nat) (hp : p < s.heap.length) :
    s.statuses[p]? = some (deref s.heap p).Status := by
  simp [Store.statuses, deref, List.getD_eq_getElem?_getD, List.getElem?_eq_getElem hp]

theorem lt_of_phase (σ : Sys) (h : SysInv σ) (p : Nat) (a : Phase) (ha : σ.phase[p]? = some a) :
    p < σ.store.heap.length := by
  rw [← h.len]
  exact (List.getElem?_eq_some.mp ha).1

theorem ids_of_phase (σ : Sys) (h : SysInv σ) (p : Nat) (a : Phase)
    (ha : σ.phase[p]? = some a) : σ.store.ids[p]? = some (deref σ.store.heap p).ID :=
  ids_getElem?_of_lt σ.store p (lt_of_phase σ h p a ha)

theorem length_ids (s : Store) : s.ids.length = s.heap.length := by simp [Store.ids]

theorem length_statuses (s : Store) : s.statuses.length = s.heap.length := by
  simp [Store.statuses]

/-! ### The invariant is kept by every step -/

theorem sysInv_init : SysInv Sys.init where
  len := rfl
  uniq := by intro p q k hp; simp [Sys.init, Store.empty, Store.ids] at hp
  nodup := List.nodup_nil
  queued := by intro p; simp [Sys.init, Store.empty]
  processing := by intro k q; simp [Sys.init, Store.empty, Store.ids]
  completed := by intro k q; simp [Sys.init, Store.empty, Store.ids]
  failed := by intro q; simp [Sys.init, Store.empty, Store.statuses]

theorem sysInv_enqueue (σ : Sys) (job : Job)
    (hfresh : σ.store.heap.all (fun j => j.ID != job.ID) = true)
    (hst : job.Status = "queued") (h : SysInv σ) :
    SysInv ⟨enqueue job σ.store, σ.phase ++ [Phase.queued]⟩ where
  len := by simp [length_heap_enqueue, h.len]
  uniq := by
    show Uniq (enqueue job σ.store).ids
    rw [ids_enqueue]
    refine uniq_append _ _ ?_ h.uniq
    intro hmem
    obtain ⟨j, hj, hjk⟩ := List.mem_map.mp hmem
    have := List.all_eq_true.mp hfresh j hj
    simp [hjk] at this
  nodup := by
    show (σ.store.jobs ++ [σ.store.heap.length]).Nodup
    rw [List.nodup_append]
    refine ⟨h.nodup, List.nodup_singleton _, ?_⟩
    intro a ha hb
    rw [List.mem_singleton] at hb
    have := lt_of_phase σ h a _ ((h.queued a).mp ha)
    omega
  queued := by
    show QueuedInv _ (σ.store.jobs ++ [σ.store.heap.length])
    rw [← h.len]
    exact queuedInv_append _ _ h.queued
  processing := by
    show MapInv _ _ (enqueue job σ.store).ids σ.store.processing
    rw [ids_enqueue]
    exact mapInv_append _ _ _ _ _ _ (by rw [h.len, length_ids])
      (by intro hr; rcases hr with hr | hr <;> cases hr) h.processing
  completed := by
    show MapInv _ _ (enqueue job σ.store).ids σ.store.completed
    rw [ids_enqueue]
    exact mapInv_append _ _ _ _ _ _ (by rw [h.len, length_ids])
      (by intro hr; cases hr) h.completed
  failed := by
    show FailedInv _ (enqueue job σ.store).statuses
    rw [statuses_enqueue]
    exact failedInv_append _ _ _ (by rw [h.len, length_statuses])
      (by rw [hst]; decide) h.failed

theorem not_running_queued : ¬ Phase.running Phase.queued := by
  intro h; rcases h with h | h <;> cases h

theorem not_running_completed : ¬ Phase.running Phase.completed := by
  intro h; rcases h with h | h <;> cases h

theorem not_running_failed : ¬ Phase.running Phase.failed := by
  intro h; rcases h with h | h <;> cases h

theorem not_running_purged : ¬ Phase.running Phase.purged := by
  intro h; rcases h with h | h <;> cases h

theorem sysInv_admit (σ : Sys) (job : Nat) (rest : List Nat)
    (hjobs : σ.store.jobs = job :: rest) (h : SysInv σ) :
    SysInv ⟨{ σ.store with jobs := rest,
                           processing := mapSet (deref σ.store.heap job).ID job
                             σ.store.processing,
                           heap := renumber rest σ.store.heap },
            σ.phase.set job Phase.admitted⟩ := by
  have hq : σ.phase[job]? = some Phase.queued :=
    (h.queued job).mp (hjobs ▸ List.mem_cons_self _ _)
  have hids : ∀ heap' : List Job, heap' = renumber rest σ.store.heap →
      heap'.map Job.ID = σ.store.ids := by
    intro heap' e
    rw [e]
    exact map_renumberFrom_field Job.ID (fun _ _ => rfl) 0 rest σ.store.heap
  have hsts : (renumber rest σ.store.heap).map Job.Status = σ.store.statuses :=
    map_renumberFrom_field Job.Status (fun _ _ => rfl) 0 rest σ.store.heap
  exact {
    len := by simp [renumber, length_renumberFrom, h.len]
    uniq := by
      show Uniq ((renumber rest σ.store.heap).map Job.ID)
      rw [hids _ rfl]; exact h.uniq
    nodup := by
      have := h.nodup
      rw [hjobs] at this
      exact (List.nodup_cons.mp this).2
    queued := by
      have hnd := h.nodup
      have hqi := h.queued
      rw [hjobs] at hnd hqi
      exact queuedInv_pop _ _ _ _ hnd (by decide) hqi
    processing := by
      show MapInv _ _ ((renumber rest σ.store.heap).map Job.ID) _
      rw [hids _ rfl]
      exact mapInv_insert _ _ _ _ _ _ _ _ h.uniq hq not_running_queued (Or.inl rfl)
        (ids_of_phase σ h job _ hq) h.processing
    completed := by
      show MapInv _ _ ((renumber rest σ.store.heap).map Job.ID) _
      rw [hids _ rfl]
      exact mapInv_same _ _ _ _ _ _ _ hq
        ⟨fun e => (by cases e), fun e => (by cases e)⟩ h.completed
    failed := by
      show FailedInv _ ((renumber rest σ.store.heap).map Job.Status)
      rw [hsts]
      exact failedInv_phase _ _ _ _ _ hq (by decide) (by decide) h.failed }

theorem sysInv_start (σ : Sys) (p now : Nat) (hp : σ.phase[p]? = some Phase.admitted)
    (h : SysInv σ) :
    SysInv ⟨processJobStart now p σ.store, σ.phase.set p Phase.converting⟩ where
  len := by simp [processJobStart, length_modifyAt, h.len]
  uniq := by
    show Uniq (processJobStart now p σ.store).ids
    rw [ids_processJobStart]; exact h.uniq
  nodup := h.nodup
  queued := queuedInv_same _ _ _ _ _ hp (by decide) (by decide) h.queued
  processing := by
    show MapInv _ _ (processJobStart now p σ.store).ids σ.store.processing
    rw [ids_processJobStart]
    exact mapInv_same _ _ _ _ _ _ _ hp
      ⟨fun _ => Or.inr rfl, fun _ => Or.inl rfl⟩ h.processing
  completed := by
    show MapInv _ _ (processJobStart now p σ.store).ids σ.store.completed
    rw [ids_processJobStart]
    exact mapInv_same _ _ _ _ _ _ _ hp
      ⟨fun e => (by cases e), fun e => (by cases e)⟩ h.completed
  failed := by
    show FailedInv _ (processJobStart now p σ.store).statuses
    rw [statuses_processJobStart]
    exact failedInv_set _ _ _ _ _ (by rw [h.len, length_statuses])
      ⟨fun e => by revert e; decide, fun e => by cases e⟩ h.failed

theorem sysInv_progress (σ : Sys) (p : Nat) (v : F64) (h : SysInv σ) :
    SysInv ⟨progressCallback v p σ.store, σ.phase⟩ where
  len := by simp [progressCallback, length_modifyAt, h.len]
  uniq := by
    show Uniq (progressCallback v p σ.store).ids
    rw [ids_progressCallback]; exact h.uniq
  nodup := h.nodup
  queued := h.queued
  processing := by
    show MapInv _ _ (progressCallback v p σ.store).ids σ.store.processing
    rw [ids_progressCallback]; exact h.processing
  completed := by
    show MapInv _ _ (progressCallback v p σ.store).ids σ.store.completed
    rw [ids_progressCallback]; exact h.completed
  failed := by
    show FailedInv _ (progressCallback v p σ.store).statuses
    rw [statuses_progressCallback]; exact h.failed

theorem sysInv_finish (σ : Sys) (p now : Nat) (err : Option String)
    (hp : σ.phase[p]? = some Phase.converting) (h : SysInv σ) :
    SysInv ⟨processJobFinish err now p σ.store,
            σ.phase.set p (if err.isSome then Phase.failed else Phase.completed)⟩ where
  len := by cases err <;> simp [processJobFinish, length_modifyAt, h.len]
  uniq := by
    show Uniq (processJobFinish err now p σ.store).ids
    rw [ids_processJobFinish]; exact h.uniq
  nodup := by cases err <;> exact h.nodup
  queued := by
    have := queuedInv_same _ _ p _ (if err.isSome then Phase.failed else Phase.completed)
      hp (by decide) (by cases err <;> simp) h.queued
    cases err <;> exact this
  processing := by
    show MapInv _ _ (processJobFinish err now p σ.store).ids
      (processJobFinish err now p σ.store).processing
    rw [ids_processJobFinish]
    have := mapInv_delete Phase.running _ _ _ p _
      (if err.isSome then Phase.failed else Phase.completed) _ h.uniq hp
      (by cases err
          · exact not_running_completed
          · exact not_running_failed)
      (ids_of_phase σ h p _ hp) h.processing
    cases err <;> exact this
  completed := by
    show MapInv _ _ (processJobFinish err now p σ.store).ids
      (processJobFinish err now p σ.store).completed
    rw [ids_processJobFinish]
    cases err with
    | none =>
      exact mapInv_insert Phase.done _ _ _ p _ _ _ h.uniq hp (fun e => by cases e) rfl
        (ids_of_phase σ h p _ hp) h.completed
    | some e =>
      exact mapInv_same Phase.done _ _ _ p _ _ hp
        ⟨fun e => (by cases e), fun e => (by cases e)⟩ h.completed
  failed := by
    show FailedInv _ (processJobFinish err now p σ.store).statuses
    rw [statuses_processJobFinish]
    refine failedInv_set _ _ _ _ _ (by rw [h.len, length_statuses]) ?_ h.failed
    cases err with
    | none => exact ⟨fun e => by revert e; decide, fun e => by cases e⟩
    | some e => exact ⟨fun _ => rfl, fun _ => rfl⟩

theorem sysInv_cleanup_completed (σ : Sys) (p : Nat)
    (hp : σ.phase[p]? = some Phase.completed) (h : SysInv σ) :
    SysInv ⟨retentionCleanup p σ.store, σ.phase.set p Phase.purged⟩ where
  len := by simp [retentionCleanup, h.len]
  uniq := h.uniq
  nodup := h.nodup
  queued := queuedInv_same _ _ _ _ _ hp (by decide) (by decide) h.queued
  processing :=
    mapInv_same _ _ _ _ _ _ _ hp
      ⟨fun e => absurd e not_running_completed, fun e => absurd e not_running_purged⟩
      h.processing
  completed :=
    mapInv_delete Phase.done _ _ _ p _ _ _ h.uniq hp (fun e => by cases e)
      (ids_of_phase σ h p _ hp) h.completed
  failed := failedInv_phase _ _ _ _ _ hp (by decide) (by decide) h.failed

theorem sysInv_cleanup_failed (σ : Sys) (p : Nat)
    (hp : σ.phase[p]? = some Phase.failed) (h : SysInv σ) :
    SysInv ⟨retentionCleanup p σ.store, σ.phase⟩ where
  len := h.len
  uniq := h.uniq
  nodup := h.nodup
  queued := h.queued
  processing := h.processing
  completed :=
    mapInv_delete_other Phase.done _ _ _ p _ _ h.uniq hp (fun e => by cases e)
      (ids_of_phase σ h p _ hp) h.completed
  failed := h.failed

theorem sysInv_step (σ σ' : Sys) (a : Action) (h : SysInv σ) (hs : σ.step a = some σ') :
    SysInv σ' := by
  cases a with
  | upload id filename size outputName now =>
    simp only [Sys.step] at hs
    split at hs
    · next hfresh =>
      cases hs
      exact sysInv_enqueue σ _ hfresh rfl h
    · cases hs
  | telegram id filename size outputName now chatID msgID =>
    simp only [Sys.step] at hs
    split at hs
    · next hfresh =>
      cases hs
      exact sysInv_enqueue σ _ hfresh rfl h
    · cases hs
  | poll cpuUsage =>
    simp only [Sys.step] at hs
    rcases queueProcessorCycle_cases cpuUsage σ.store with ⟨job, rest, hjobs, _, _, heq⟩ | heq
    · rw [heq] at hs
      cases hs
      exact sysInv_admit σ job rest hjobs h
    · rw [heq] at hs
      cases hs
      exact h
  | start p now =>
    simp only [Sys.step] at hs
    split at hs
    · next hp => cases hs; exact sysInv_start σ p now hp h
    · cases hs
  | progress p value =>
    simp only [Sys.step] at hs
    split at hs
    · cases hs; exact sysInv_progress σ p value h
    · cases hs
  | finish p err now =>
    simp only [Sys.step] at hs
    split at hs
    · next hp => cases hs; exact sysInv_finish σ p now err hp h
    · cases hs
  | cleanup p =>
    simp only [Sys.step] at hs
    split at hs
    · next hp => cases hs; exact sysInv_cleanup_completed σ p hp h
    · split at hs
      · next hp => cases hs; exact sysInv_cleanup_failed σ p hp h
      · cases hs

theorem sysInv_reachable (σ : Sys) (h : Reachable σ) : SysInv σ :=
  reachable_invariant SysInv sysInv_init (fun σ a σ' hi hs => sysInv_step σ σ' a hi hs) σ h

/-! ### Reading the partitions -/

theorem mem_values_iff (S : Phase → Prop) (ph : List Phase) (ids : List String)
    (m : List (String × Nat)) (hm : MapInv S ph ids m) (p : Nat) (k : String)
    (hk : ids[p]? = some k) :
    p ∈ m.map Prod.snd ↔ ∃ x, ph[p]? = some x ∧ S x := by
  constructor
  · intro hmem
    obtain ⟨e, he, hep⟩ := List.mem_map.mp hmem
    have : (e.1, p) ∈ m := by rw [← hep]; exact he
    exact ((hm e.1 p).mp this).1
  · intro hx
    exact List.mem_map.mpr ⟨(k, p), (hm k p).mpr ⟨hx, hk⟩, rfl⟩

theorem mapGet_pos (S : Phase → Prop) (ph : List Phase) (ids : List String)
    (m : List (String × Nat)) (hm : MapInv S ph ids m) (hu : Uniq ids) (p : Nat)
    (k : String) (hk : ids[p]? = some k) (hx : ∃ x, ph[p]? = some x ∧ S x) :
    mapGet k m = some p := by
  unfold mapGet
  cases hf : m.find? (fun e => e.1 == k) with
  | none =>
    have := List.find?_eq_none.mp hf (k, p) ((hm k p).mpr ⟨hx, hk⟩)
    simp at this
  | some e =>
    have he1 : e.1 = k := by simpa using List.find?_some hf
    have hmem : (e.1, e.2) ∈ m := List.mem_of_find?_eq_some hf
    have hq := ((hm e.1 e.2).mp hmem).2
    rw [he1] at hq
    simp [hu e.2 p k hq hk]

theorem mapGet_neg (S : Phase → Prop) (ph : List Phase) (ids : List String)
    (m : List (String × Nat)) (hm : MapInv S ph ids m) (hu : Uniq ids) (p : Nat)
    (k : String) (hk : ids[p]? = some k) (hx : ¬ ∃ x, ph[p]? = some x ∧ S x) :
    mapGet k m = none := by
  unfold mapGet
  cases hf : m.find? (fun e => e.1 == k) with
  | none => rfl
  | some e =>
    have he1 : e.1 = k := by simpa using List.find?_some hf
    have hmem : (e.1, e.2) ∈ m := List.mem_of_find?_eq_some hf
    have hq := (hm e.1 e.2).mp hmem
    rw [he1] at hq
    have hpe : e.2 = p := hu e.2 p k hq.2 hk
    rw [hpe] at hq
    exact absurd hq.1 hx

theorem findQueued_pos (σ : Sys) (h : SysInv σ) (p : Nat)
    (hx : σ.phase[p]? = some Phase.queued) :
    σ.store.jobs.find? (fun q => (deref σ.store.heap q).ID == (deref σ.store.heap p).ID)
      = some p := by
  cases hf : σ.store.jobs.find?
      (fun q => (deref σ.store.heap q).ID == (deref σ.store.heap p).ID) with
  | none =>
    have := List.find?_eq_none.mp hf p ((h.queued p).mpr hx)
    simp at this
  | some q =>
    have hq1 : (deref σ.store.heap q).ID = (deref σ.store.heap p).ID := by
      simpa using List.find?_some hf
    have hqx := (h.queued q).mp (List.mem_of_find?_eq_some hf)
    have e1 := ids_of_phase σ h q _ hqx
    have e2 := ids_of_phase σ h p _ hx
    rw [hq1] at e1
    rw [h.uniq q p _ e1 e2]

theorem findQueued_neg (σ : Sys) (h : SysInv σ) (p : Nat) (x : Phase)
    (hx : σ.phase[p]? = some x) (hne : x ≠ Phase.queued) :
    σ.store.jobs.find? (fun q => (deref σ.store.heap q).ID == (deref σ.store.heap p).ID)
      = none := by
  rw [List.find?_eq_none]
  intro q hq hid
  have hq1 : (deref σ.store.heap q).ID = (deref σ.store.heap p).ID := by simpa using hid
  have hqx := (h.queued q).mp hq
  have e1 := ids_of_phase σ h q _ hqx
  have e2 := ids_of_phase σ h p _ hx
  rw [hq1] at e1
  have hqp := h.uniq q p _ e1 e2
  rw [hqp, hx] at hqx
  exact hne (Option.some.inj hqx)

theorem partitionCount_of_phase (σ : Sys) (h : SysInv σ) (p : Nat) (x : Phase)
    (hx : σ.phase[p]? = some x) :
    partitionCount σ.store p
      = if x = Phase.failed ∨ x = Phase.purged then 0 else 1 := by
  have hk := ids_of_phase σ h p x hx
  have hq : p ∈ σ.store.jobs ↔ x = Phase.queued := by
    rw [h.queued p, hx]
    exact ⟨fun e => Option.some.inj e, fun e => by rw [e]⟩
  have hr : p ∈ σ.store.processing.map Prod.snd ↔ x.running := by
    rw [mem_values_iff _ _ _ _ h.processing p _ hk, hx]
    exact ⟨fun ⟨y, hy, hS⟩ => (Option.some.inj hy) ▸ hS, fun hS => ⟨x, rfl, hS⟩⟩
  have hc : p ∈ σ.store.completed.map Prod.snd ↔ x = Phase.completed := by
    rw [mem_values_iff _ _ _ _ h.completed p _ hk, hx]
    exact ⟨fun ⟨y, hy, hS⟩ => (Option.some.inj hy) ▸ hS, fun hS => ⟨x, rfl, hS⟩⟩
  unfold partitionCount
  cases x <;> simp [hq, hr, hc, Phase.running]

theorem status_failed_iff (σ : Sys) (h : SysInv σ) (p : Nat) (x : Phase)
    (hx : σ.phase[p]? = some x) :
    (deref σ.store.heap p).Status = "failed" ↔ x = Phase.failed := by
  have hs := statuses_getElem?_of_lt σ.store p (lt_of_phase σ h p x hx)
  have := h.failed p
  rw [hs, hx] at this
  constructor
  · intro e
    exact Option.some.inj (this.mp (by rw [e]))
  · intro e
    exact Option.some.inj (this.mpr (by rw [e]))

/-- A job in one of the partitions is found by the lookup and listed. -/
theorem lookup_present (σ : Sys) (h : SysInv σ) (p : Nat) (x : Phase)
    (hx : σ.phase[p]? = some x) (hf : x ≠ Phase.failed) (hpu : x ≠ Phase.purged) :
    handleGetJob (deref σ.store.heap p).ID σ.store = some (deref σ.store.heap p) ∧
      deref σ.store.heap p ∈ handleGetJobs σ.store := by
  have hk := ids_of_phase σ h p x hx
  have hcount := partitionCount_of_phase σ h p x hx
  by_cases hq : x = Phase.queued
  · subst hq
    constructor
    · simp only [handleGetJob, findQueued_pos σ h p hx]
    · exact List.mem_map.mpr ⟨p, by simp [listedJobs, (h.queued p).mpr hx], rfl⟩
  · have hfq := findQueued_neg σ h p x hx hq
    by_cases hr : x.running
    · have hg := mapGet_pos _ _ _ _ h.processing h.uniq p _ hk ⟨x, hx, hr⟩
      constructor
      · simp only [handleGetJob, hfq, hg]
      · refine List.mem_map.mpr ⟨p, ?_, rfl⟩
        have := (mem_values_iff _ _ _ _ h.processing p _ hk).mpr ⟨x, hx, hr⟩
        simp [listedJobs, this]
    · have hg := mapGet_neg _ _ _ _ h.processing h.uniq p _ hk
        (fun ⟨y, hy, hS⟩ => hr ((Option.some.inj (hx.symm.trans hy)) ▸ hS))
      have hc : x = Phase.completed := by
        cases x
        · exact absurd rfl hq
        · exact absurd (Or.inl rfl) hr
        · exact absurd (Or.inr rfl) hr
        · rfl
        · exact absurd rfl hf
        · exact absurd rfl hpu
      have hg2 := mapGet_pos _ _ _ _ h.completed h.uniq p _ hk ⟨x, hx, hc⟩
      constructor
      · simp only [handleGetJob, hfq, hg, hg2]
      · refine List.mem_map.mpr ⟨p, ?_, rfl⟩
        have := (mem_values_iff _ _ _ _ h.completed p _ hk).mpr ⟨x, hx, hc⟩
        simp [listedJobs, this]

/-- A job in none of the partitions is neither found by the lookup nor listed. -/
theorem lookup_absent (σ : Sys) (h : SysInv σ) (p : Nat) (x : Phase)
    (hx : σ.phase[p]? = some x) (hf : x = Phase.failed ∨ x = Phase.purged) :
    handleGetJob (deref σ.store.heap p).ID σ.store = none ∧
      ∀ j ∈ handleGetJobs σ.store, j.ID ≠ (deref σ.store.heap p).ID := by
  have hk := ids_of_phase σ h p x hx
  have hq : x ≠ Phase.queued := by rcases hf with e | e <;> rw [e] <;> decide
  have hr : ¬ ∃ y, σ.phase[p]? = some y ∧ y.running := by
    rintro ⟨y, hy, hS⟩
    have := Option.some.inj (hx.symm.trans hy)
    subst this
    rcases hf with e | e <;> rw [e] at hS
    · exact not_running_failed hS
    · exact not_running_purged hS
  have hd : ¬ ∃ y, σ.phase[p]? = some y ∧ y.done := by
    rintro ⟨y, hy, hS⟩
    have := Option.some.inj (hx.symm.trans hy)
    subst this
    rcases hf with e | e <;> rw [e] at hS <;> cases hS
  constructor
  · simp only [handleGetJob, findQueued_neg σ h p x hx hq,
      mapGet_neg _ _ _ _ h.processing h.uniq p _ hk hr,
      mapGet_neg _ _ _ _ h.completed h.uniq p _ hk hd]
  · intro j hj hid
    obtain ⟨q, hql, hqj⟩ := List.mem_map.mp hj
    subst hqj
    have hcount := partitionCount_of_phase σ h p x hx
    rw [if_pos hf] at hcount
    have hqlt : q < σ.store.heap.length ∧ q = p := by
      simp only [listedJobs, List.mem_append] at hql
      have hqphase : ∃ y, σ.phase[q]? = some y := by
        rcases hql with (hq1 | hq1) | hq1
        · exact ⟨_, (h.queued q).mp hq1⟩
        · obtain ⟨e, he, heq⟩ := List.mem_map.mp hq1
          have : (e.1, q) ∈ σ.store.processing := by rw [← heq]; exact he
          obtain ⟨⟨y, hy, _⟩, _⟩ := (h.processing e.1 q).mp this
          exact ⟨y, hy⟩
        · obtain ⟨e, he, heq⟩ := List.mem_map.mp hq1
          have : (e.1, q) ∈ σ.store.completed := by rw [← heq]; exact he
          obtain ⟨⟨y, hy, _⟩, _⟩ := (h.completed e.1 q).mp this
          exact ⟨y, hy⟩
      obtain ⟨y, hy⟩ := hqphase
      have e1 := ids_of_phase σ h q y hy
      rw [hid] at e1
      exact ⟨lt_of_phase σ h q y hy, h.uniq q p _ e1 hk⟩
    rw [hqlt.2] at hql
    unfold partitionCount at hcount
    simp only [listedJobs, List.mem_append] at hql
    rcases hql with (hq1 | hq1) | hq1
    · rw [if_pos hq1] at hcount; omega
    · rw [if_pos hq1] at hcount; omega
    · rw [if_pos hq1] at hcount; omega

/-- C7, as stated, fails: after both attempts of the first upload have failed, its
record is in none of the three partitions although it has not been purged; the
lookup reports "Job not found" and the listing omits it. -/
theorem failed_job_dropped :
    Reachable (Sys.after firstFailed) ∧
      0 < (Sys.after firstFailed).store.heap.length ∧
      (Sys.after firstFailed).phase[0]? = some Phase.failed ∧
      (deref (Sys.after firstFailed).store.heap 0).ID = "job-1" ∧
      (deref (Sys.after firstFailed).store.heap 0).Status = "failed" ∧
      partitionCount (Sys.after firstFailed).store 0 = 0 ∧
      handleGetJob "job-1" (Sys.after firstFailed).store = none ∧
      (handleGetJobs (Sys.after firstFailed).store).map Job.ID = ["job-3", "job-2"] :=
  ⟨reachable_after firstFailed (by decide), by decide, by decide, by decide, by decide,
    by decide, by decide, by decide⟩

/-- C7, amended: in every reachable state a job belongs to at most one of the
partitions Queued, Processing, Completed; a job that has neither ended "failed"
nor been purged belongs to exactly one, is returned by the lookup and appears in
the listing; a job that ended "failed" belongs to none, the lookup of its id
reports "Job not found" and the listing holds no job with its id. -/
theorem partition_of_jobs (σ : Sys) (h : Reachable σ) (p : Nat)
    (hp : p < σ.store.heap.length) :
    partitionCount σ.store p ≤ 1 ∧
    ((deref σ.store.heap p).Status ≠ "failed" → σ.phase[p]? ≠ some Phase.purged →
      partitionCount σ.store p = 1 ∧
      handleGetJob (deref σ.store.heap p).ID σ.store = some (deref σ.store.heap p) ∧
      deref σ.store.heap p ∈ handleGetJobs σ.store) ∧
    ((deref σ.store.heap p).Status = "failed" →
      partitionCount σ.store p = 0 ∧
      handleGetJob (deref σ.store.heap p).ID σ.store = none ∧
      ∀ j ∈ handleGetJobs σ.store, j.ID ≠ (deref σ.store.heap p).ID) := by
  have hinv := sysInv_reachable σ h
  have hlt : p < σ.phase.length := by rw [hinv.len]; exact hp
  have hx : σ.phase[p]? = some σ.phase[p] := List.getElem?_eq_getElem hlt
  have hcount := partitionCount_of_phase σ hinv p _ hx
  have hstatus := status_failed_iff σ hinv p _ hx
  refine ⟨?_, ?_, ?_⟩
  · rw [hcount]; split <;> omega
  · intro hnf hnp
    have h1 : σ.phase[p] ≠ Phase.failed := fun e => hnf (hstatus.mpr e)
    have h2 : σ.phase[p] ≠ Phase.purged := fun e => hnp (by rw [hx, e])
    refine ⟨?_, lookup_present σ hinv p _ hx h1 h2⟩
    rw [hcount, if_neg]
    rintro (e | e)
    · exact h1 e
    · exact h2 e
  · intro hf
    have h1 : σ.phase[p] = Phase.failed := hstatus.mp hf
    refine ⟨?_, lookup_absent σ hinv p _ hx (Or.inl h1)⟩
    rw [hcount, if_pos (Or.inl h1)]

/-- C7, instance of the amended statement: in the state where the first upload
has failed, the second upload (still processing) is in exactly one partition and
is found by the lookup, and the first is in none. -/
theorem partition_of_jobs_witness :
    Reachable (Sys.after firstFailed) ∧ 1 < (Sys.after firstFailed).store.heap.length ∧
      partitionCount (Sys.after firstFailed).store 1 = 1 ∧
      (handleGetJob "job-2" (Sys.after firstFailed).store).map Job.ID = some "job-2" ∧
      0 < (Sys.after firstFailed).store.heap.length ∧
      partitionCount (Sys.after firstFailed).store 0 = 0 := by
  have hr : Reachable (Sys.after firstFailed) := reachable_after firstFailed (by decide)
  have h1 := partition_of_jobs (Sys.after firstFailed) hr 1 (by decide)
  have h0 := partition_of_jobs (Sys.after firstFailed) hr 0 (by decide)
  refine ⟨hr, by decide, (h1.2.1 (by decide) (by decide)).1, ?_, by decide,
    (h0.2.2 (by decide)).1⟩
  have := (h1.2.1 (by decide) (by decide)).2.1
  have hid : (deref (Sys.after firstFailed).store.heap 1).ID = "job-2" := by decide
  rw [hid] at this
  rw [this, Option.map_some', hid]

/-! ## CPU monitor -/

theorem subUint64_self (a : Nat) : subUint64 a a = 0 := by
  unfold subUint64 uint64Size
  omega

theorem subUint64_eq_zero_iff (a b : Nat) (ha : a < uint64Size) (hb : b < uint64Size) :
    subUint64 a b = 0 ↔ a = b := by
  unfold subUint64 uint64Size at *
  omega

/-- On the zero-delta path the call returns 0, does not divide and leaves the
monitor as it was. -/
theorem getCPUUsage_zero_delta (m : CPUMonitor) (currentStats : CPUStats)
    (h : subUint64 currentStats.total m.lastStats.total = 0) :
    m.GetCPUUsage currentStats = { usage := 0, divided := false, monitor := m } := by
  simp [CPUMonitor.GetCPUUsage, h]

/-- On the other path the call divides by the non-zero total delta and stores the
current reading. -/
theorem getCPUUsage_nonzero_delta (m : CPUMonitor) (currentStats : CPUStats)
    (h : subUint64 currentStats.total m.lastStats.total ≠ 0) :
    m.GetCPUUsage currentStats =
      { usage := 100 * (1 - (subUint64 currentStats.idle m.lastStats.idle : ℚ)
          / (subUint64 currentStats.total m.lastStats.total : ℚ)),
        divided := true, monitor := { lastStats := currentStats } } := by
  simp [CPUMonitor.GetCPUUsage, h]

/-- C11: a call of `GetCPUUsage` whose current total equals the stored one (in
particular, whose counters are identical to the stored ones) returns exactly 0
without evaluating the division, and whenever the division is evaluated its
divisor is not 0; two consecutive calls over unchanged counters both return 0,
and the second of two calls over the same reading returns 0 whatever the stored
sample was. -/
theorem zero_delta_returns_zero :
    (∀ (m : CPUMonitor) (currentStats : CPUStats),
      currentStats.total = m.lastStats.total →
        (m.GetCPUUsage currentStats).usage = 0 ∧
        (m.GetCPUUsage currentStats).divided = false) ∧
    (∀ (m : CPUMonitor) (currentStats : CPUStats),
      (m.GetCPUUsage currentStats).divided = true →
        subUint64 currentStats.total m.lastStats.total ≠ 0) ∧
    (∀ m : CPUMonitor,
      (m.GetCPUUsage m.lastStats).usage = 0 ∧
      (m.GetCPUUsage m.lastStats).divided = false ∧
      ((m.GetCPUUsage m.lastStats).monitor.GetCPUUsage m.lastStats).usage = 0 ∧
      ((m.GetCPUUsage m.lastStats).monitor.GetCPUUsage m.lastStats).divided = false) ∧
    (∀ (m : CPUMonitor) (currentStats : CPUStats),
      ((m.GetCPUUsage currentStats).monitor.GetCPUUsage currentStats).usage = 0 ∧
      ((m.GetCPUUsage currentStats).monitor.GetCPUUsage currentStats).divided = false) := by
  have hsame : ∀ (m : CPUMonitor) (currentStats : CPUStats),
      currentStats.total = m.lastStats.total →
        m.GetCPUUsage currentStats = { usage := 0, divided := false, monitor := m } := by
    intro m currentStats h
    apply getCPUUsage_zero_delta
    rw [h]
    exact subUint64_self _
  have htwice : ∀ (m : CPUMonitor) (currentStats : CPUStats),
      subUint64 currentStats.total (m.GetCPUUsage currentStats).monitor.lastStats.total = 0 := by
    intro m currentStats
    by_cases h : subUint64 currentStats.total m.lastStats.total = 0
    · rw [getCPUUsage_zero_delta m currentStats h]
      exact h
    · rw [getCPUUsage_nonzero_delta m currentStats h]
      exact subUint64_self _
  refine ⟨?_, ?_, ?_, ?_⟩
  · intro m currentStats h
    rw [hsame m currentStats h]
    exact ⟨rfl, rfl⟩
  · intro m currentStats hdiv h
    rw [getCPUUsage_zero_delta m currentStats h] at hdiv
    cases hdiv
  · intro m
    rw [hsame m m.lastStats rfl]
    refine ⟨rfl, rfl, ?_, ?_⟩
    · show (m.GetCPUUsage m.lastStats).usage = 0
      rw [hsame m m.lastStats rfl]
    · show (m.GetCPUUsage m.lastStats).divided = false
      rw [hsame m m.lastStats rfl]
  · intro m currentStats
    rw [getCPUUsage_zero_delta _ currentStats (htwice m currentStats)]
    exact ⟨rfl, rfl⟩

/-- C11, instance: a monitor that sampled `statBefore` is asked twice while
`/proc/stat` still reads `statBefore`. -/
theorem zero_delta_returns_zero_witness :
    (getCPUStats (some statBefore)).total
        = (NewCPUMonitor (getCPUStats (some statBefore))).lastStats.total ∧
      ((NewCPUMonitor (getCPUStats (some statBefore))).GetCPUUsage
        (getCPUStats (some statBefore))).usage = 0 ∧
      ((NewCPUMonitor (getCPUStats (some statBefore))).GetCPUUsage
        (getCPUStats (some statBefore))).divided = false :=
  ⟨rfl,
    (zero_delta_returns_zero.1 (NewCPUMonitor (getCPUStats (some statBefore)))
      (getCPUStats (some statBefore)) rfl).1,
    (zero_delta_returns_zero.1 (NewCPUMonitor (getCPUStats (some statBefore)))
      (getCPUStats (some statBefore)) rfl).2⟩

/-- The stored sample after a call: the current reading, except on the zero-delta
path, where the early return leaves the old sample in place. -/
theorem lastStats_getCPUUsage (m : CPUMonitor) (currentStats : CPUStats) :
    (m.GetCPUUsage currentStats).monitor.lastStats
      = if subUint64 currentStats.total m.lastStats.total = 0 then m.lastStats
        else currentStats := by
  by_cases h : subUint64 currentStats.total m.lastStats.total = 0
  · rw [getCPUUsage_zero_delta m currentStats h, if_pos h]
  · rw [getCPUUsage_nonzero_delta m currentStats h, if_neg h]

/-- C13 fails on the code: the monitor sampled `statBefore`; `/proc/stat` then
reads `statSameTotal` (same sum of counters, different counters).  The call
returns 0 through the early return and the stored sample is still the one of
`statBefore`, not the current reading; the next call, at `statLater`, therefore
measures the idle time since `statBefore` and reports 50 where the delta since
the previous call gives 60. -/
theorem stale_sample_after_zero_delta :
    getCPUStats (some statBefore) = ⟨100, 0, 50, 800, 50, 1000⟩ ∧
      getCPUStats (some statSameTotal) = ⟨110, 0, 50, 810, 30, 1000⟩ ∧
      getCPUStats (some statLater) = ⟨160, 0, 50, 850, 40, 1100⟩ ∧
      ((NewCPUMonitor (getCPUStats (some statBefore))).GetCPUUsage
        (getCPUStats (some statSameTotal))).usage = 0 ∧
      ((NewCPUMonitor (getCPUStats (some statBefore))).GetCPUUsage
        (getCPUStats (some statSameTotal))).monitor.lastStats
          = getCPUStats (some statBefore) ∧
      ((NewCPUMonitor (getCPUStats (some statBefore))).GetCPUUsage
        (getCPUStats (some statSameTotal))).monitor.lastStats
          ≠ getCPUStats (some statSameTotal) ∧
      (((NewCPUMonitor (getCPUStats (some statBefore))).GetCPUUsage
        (getCPUStats (some statSameTotal))).monitor.GetCPUUsage
          (getCPUStats (some statLater))).usage = 50 ∧
      ((NewCPUMonitor (getCPUStats (some statSameTotal))).GetCPUUsage
        (getCPUStats (some statLater))).usage = 60 := by
  decide!

/-! ## Retention -/

theorem deref_enqueue_other (job : Job) (s : Store) (p : Nat) (hp : p < s.heap.length)
    (hnot : p ∉ s.jobs) : deref (enqueue job s).heap p = deref s.heap p := by
  have hmem : p ∉ s.jobs ++ [s.heap.length] := by
    simp only [List.mem_append, List.mem_singleton, not_or]
    exact ⟨hnot, by omega⟩
  simp only [enqueue, renumber]
  rw [deref_renumberFrom_notMem _ _ _ _ hmem]
  simp only [deref, List.getD_eq_getElem?_getD, List.getElem?_append_left hp]

/-- A job that has left the queue and the Processing partition keeps its phase and
its record through every step, apart from the cleanup of a completed job itself. -/
theorem step_keeps (σ σ' : Sys) (a : Action) (p : Nat) (x : Phase) (hinv : SysInv σ)
    (hs : σ.step a = some σ') (hx : σ.phase[p]? = some x) (hq : x ≠ Phase.queued)
    (hr : ¬ x.running) (hc : x = Phase.completed → a ≠ Action.cleanup p) :
    σ'.phase[p]? = some x ∧ deref σ'.store.heap p = deref σ.store.heap p := by
  have hplt : p < σ.phase.length := (List.getElem?_eq_some.mp hx).1
  have hnotq : p ∉ σ.store.jobs := by
    intro hmem
    have := (hinv.queued p).mp hmem
    rw [hx] at this
    exact hq (Option.some.inj this)
  have hne : ∀ (q : Nat) (y : Phase), σ.phase[q]? = some y → y ≠ x → q ≠ p := by
    intro q y hy hyx hqp
    rw [hqp, hx] at hy
    exact hyx (Option.some.inj hy).symm
  cases a with
  | upload id filename size outputName now =>
    simp only [Sys.step] at hs
    split at hs
    · cases hs
      exact ⟨by rw [List.getElem?_append_left hplt]; exact hx,
        deref_enqueue_other _ _ p (hinv.len ▸ hplt) hnotq⟩
    · cases hs
  | telegram id filename size outputName now chatID msgID =>
    simp only [Sys.step] at hs
    split at hs
    · cases hs
      exact ⟨by rw [List.getElem?_append_left hplt]; exact hx,
        deref_enqueue_other _ _ p (hinv.len ▸ hplt) hnotq⟩
    · cases hs
  | poll cpuUsage =>
    simp only [Sys.step] at hs
    rcases queueProcessorCycle_cases cpuUsage σ.store with ⟨job, rest, hjobs, _, _, heq⟩ | heq
    · rw [heq] at hs
      cases hs
      have hjq : σ.phase[job]? = some Phase.queued :=
        (hinv.queued job).mp (hjobs ▸ List.mem_cons_self _ _)
      have hjp : p ≠ job := fun e => hne job _ hjq (fun e' => hq e'.symm) e.symm
      refine ⟨by rw [getElem?_set_other _ _ _ _ hjp]; exact hx, ?_⟩
      exact deref_renumberFrom_notMem 0 rest σ.store.heap p
        (fun hmem => hnotq (hjobs ▸ List.mem_cons_of_mem _ hmem))
    · rw [heq] at hs
      cases hs
      exact ⟨hx, rfl⟩
  | start q now =>
    simp only [Sys.step] at hs
    split at hs
    · next hg =>
      cases hs
      have hqp : p ≠ q := fun e => hne q _ hg (fun e' => hr (e' ▸ Or.inl rfl)) e.symm
      exact ⟨by rw [getElem?_set_other _ _ _ _ hqp]; exact hx,
        deref_modifyAt_ne _ _ _ _ hqp⟩
    · cases hs
  | progress q value =>
    simp only [Sys.step] at hs
    split at hs
    · next hg =>
      cases hs
      have hqp : p ≠ q := fun e => hne q _ hg (fun e' => hr (e' ▸ Or.inr rfl)) e.symm
      exact ⟨hx, deref_modifyAt_ne _ _ _ _ hqp⟩
    · cases hs
  | finish q err now =>
    simp only [Sys.step] at hs
    split at hs
    · next hg =>
      cases hs
      have hqp : p ≠ q := fun e => hne q _ hg (fun e' => hr (e' ▸ Or.inr rfl)) e.symm
      refine ⟨by rw [getElem?_set_other _ _ _ _ hqp]; exact hx, ?_⟩
      cases err <;> exact deref_modifyAt_ne _ _ _ _ hqp
    · cases hs
  | cleanup q =>
    simp only [Sys.step] at hs
    split at hs
    · next hg =>
      cases hs
      have hqp : p ≠ q := by
        intro e
        subst e
        rw [hx] at hg
        exact hc (Option.some.inj hg) rfl
      exact ⟨by rw [getElem?_set_other _ _ _ _ hqp]; exact hx, rfl⟩
    · split at hs
      · cases hs
        exact ⟨hx, rfl⟩
      · cases hs

theorem run_keeps (p : Nat) (x : Phase) (hq : x ≠ Phase.queued) (hr : ¬ x.running)
    (acts : List Action) (hc : x = Phase.completed → Action.cleanup p ∉ acts) :
    ∀ σ σ' : Sys, SysInv σ → σ.run acts = some σ' → σ.phase[p]? = some x →
      SysInv σ' ∧ σ'.phase[p]? = some x ∧ deref σ'.store.heap p = deref σ.store.heap p := by
  induction acts with
  | nil =>
    intro σ σ' hinv hrun hx
    simp only [Sys.run, Option.some.injEq] at hrun
    subst hrun
    exact ⟨hinv, hx, rfl⟩
  | cons a as ih =>
    intro σ σ' hinv hrun hx
    simp only [Sys.run] at hrun
    split at hrun
    · next σ₁ h₁ =>
      have hk := step_keeps σ σ₁ a p x hinv h₁ hx hq hr
        (fun e hcl => hc e (hcl ▸ List.mem_cons_self _ _))
      have := ih (fun e hmem => hc e (List.mem_cons_of_mem _ hmem)) σ₁ σ'
        (sysInv_step σ σ₁ a hinv h₁) hrun hk.1
      exact ⟨this.1, this.2.1, this.2.2.trans hk.2⟩
    · cases hrun

theorem not_listed_of_phase (σ : Sys) (h : SysInv σ) (p : Nat) (x : Phase)
    (hx : σ.phase[p]? = some x) (hf : x = Phase.failed ∨ x = Phase.purged) :
    p ∉ σ.store.jobs ∧ p ∉ σ.store.processing.map Prod.snd ∧
      p ∉ σ.store.completed.map Prod.snd ∧ p ∉ listedJobs σ.store := by
  have hcount := partitionCount_of_phase σ h p x hx
  rw [if_pos hf] at hcount
  unfold partitionCount at hcount
  have h1 : p ∉ σ.store.jobs := fun hm => by rw [if_pos hm] at hcount; omega
  have h2 : p ∉ σ.store.processing.map Prod.snd := fun hm => by
    rw [if_pos hm] at hcount; omega
  have h3 : p ∉ σ.store.completed.map Prod.snd := fun hm => by
    rw [if_pos hm] at hcount; omega
  refine ⟨h1, h2, h3, ?_⟩
  simp only [listedJobs, List.mem_append, not_or]
  exact ⟨⟨h1, h2⟩, h3⟩

/-- The cleanup of a completed job deletes exactly the entries of its address. -/
theorem completed_retentionCleanup (σ : Sys) (hinv : SysInv σ) (p : Nat)
    (hx : σ.phase[p]? = some Phase.completed) :
    (retentionCleanup p σ.store).completed
      = σ.store.completed.filter (fun e => e.2 != p) := by
  have hid := ids_of_phase σ hinv p _ hx
  show mapDelete (deref σ.store.heap p).ID σ.store.completed = _
  unfold mapDelete
  apply List.filter_congr
  intro e he
  have hek := ((hinv.completed e.1 e.2).mp he).2
  by_cases hep : e.2 = p
  · rw [hep, hid] at hek
    have hk : e.1 = (deref σ.store.heap p).ID := (Option.some.inj hek).symm
    simp [hep, hk]
  · have hk : e.1 ≠ (deref σ.store.heap p).ID := by
      intro hk
      rw [hk] at hek
      exact hep (hinv.uniq e.2 p _ hek hid)
    have h1 : (e.1 != (deref σ.store.heap p).ID) = true := by simpa using hk
    have h2 : (e.2 != p) = true := by simpa using hep
    rw [h1, h2]

/-- C12: a job held in the Completed partition stays there, with its record
unchanged, found by the lookup and present in the listing, through every sequence
of steps that does not contain its own retention cleanup (uploads, scheduler
cycles, steps and cleanups of other jobs); its own cleanup removes exactly its
entry from the Completed partition and from the listing and leaves the heap, the
queue, the Processing partition and the entries of all other jobs as they were;
and from then on the job is never again in the Completed partition, found by the
lookup or listed. -/
theorem completed_until_purged (σ : Sys) (h : Reachable σ) (p : Nat)
    (hp : p ∈ σ.store.completed.map Prod.snd) :
    (∀ acts σ', σ.run acts = some σ' → Action.cleanup p ∉ acts →
      ((deref σ.store.heap p).ID, p) ∈ σ'.store.completed ∧
      deref σ'.store.heap p = deref σ.store.heap p ∧
      deref σ.store.heap p ∈ handleGetJobs σ'.store ∧
      handleGetJob (deref σ.store.heap p).ID σ'.store = some (deref σ.store.heap p)) ∧
    (∃ σ', σ.step (Action.cleanup p) = some σ' ∧
      σ'.store.heap = σ.store.heap ∧ σ'.store.jobs = σ.store.jobs ∧
      σ'.store.processing = σ.store.processing ∧
      σ'.store.completed = σ.store.completed.filter (fun e => e.2 != p) ∧
      listedJobs σ'.store = (listedJobs σ.store).filter (fun q => q != p) ∧
      ∀ acts σ'', σ'.run acts = some σ'' →
        p ∉ σ''.store.completed.map Prod.snd ∧ p ∉ listedJobs σ''.store ∧
        handleGetJob (deref σ.store.heap p).ID σ''.store = none ∧
        ∀ j ∈ handleGetJobs σ''.store, j.ID ≠ (deref σ.store.heap p).ID) := by
  have hinv := sysInv_reachable σ h
  have hx : σ.phase[p]? = some Phase.completed := by
    obtain ⟨e, he, hep⟩ := List.mem_map.mp hp
    have hmem : (e.1, p) ∈ σ.store.completed := by rw [← hep]; exact he
    obtain ⟨⟨x, hx, hS⟩, _⟩ := (hinv.completed e.1 p).mp hmem
    have hxc : x = Phase.completed := hS
    rw [hxc] at hx
    exact hx
  have hid := ids_of_phase σ hinv p _ hx
  constructor
  · intro acts σ' hrun hnot
    obtain ⟨hinv', hx', hrec⟩ :=
      run_keeps p Phase.completed (by decide) not_running_completed acts (fun _ => hnot)
        σ σ' hinv hrun hx
    have hpres := lookup_present σ' hinv' p _ hx' (by decide) (by decide)
    have hid' := ids_of_phase σ' hinv' p _ hx'
    rw [hrec] at hpres hid'
    exact ⟨(hinv'.completed _ p).mpr ⟨⟨_, hx', rfl⟩, hid'⟩, hrec, hpres.2, hpres.1⟩
  · refine ⟨⟨retentionCleanup p σ.store, σ.phase.set p Phase.purged⟩, ?_, rfl, rfl, rfl,
      ?_, ?_, ?_⟩
    · simp [Sys.step, hx]
    · exact completed_retentionCleanup σ hinv p hx
    · have hnj : p ∉ σ.store.jobs := by
        intro hm
        have := (hinv.queued p).mp hm
        rw [hx] at this
        cases this
      have hnp : p ∉ σ.store.processing.map Prod.snd := by
        intro hm
        have := (mem_values_iff _ _ _ _ hinv.processing p _ hid).mp hm
        obtain ⟨y, hy, hS⟩ := this
        rw [hx] at hy
        cases hy
        exact not_running_completed hS
      have hdel := completed_retentionCleanup σ hinv p hx
      show (retentionCleanup p σ.store).jobs
          ++ (retentionCleanup p σ.store).processing.map Prod.snd
          ++ (retentionCleanup p σ.store).completed.map Prod.snd = _
      rw [hdel]
      simp only [listedJobs, List.filter_append, List.filter_map]
      have e1 : σ.store.jobs.filter (fun q => q != p) = σ.store.jobs :=
        List.filter_eq_self.mpr (fun q hq => by
          have : q ≠ p := fun e => hnj (e ▸ hq)
          simpa using this)
      have e2 : (σ.store.processing.filter ((fun q => q != p) ∘ Prod.snd))
          = σ.store.processing :=
        List.filter_eq_self.mpr (fun e he => by
          have : e.2 ≠ p := fun hep => hnp (List.mem_map.mpr ⟨e, he, hep⟩)
          simpa using this)
      rw [e1, e2]
      rfl
    · intro acts σ'' hrun
      have hinv' := sysInv_cleanup_completed σ p hx hinv
      have hx' : (σ.phase.set p Phase.purged)[p]? = some Phase.purged :=
        getElem?_set_self_of_some _ _ _ _ hx
      obtain ⟨hinv'', hx'', hrec⟩ :=
        run_keeps p Phase.purged (by decide) not_running_purged acts
          (fun e => by cases e) _ σ'' hinv' hrun hx'
      have hrec' : deref σ''.store.heap p = deref σ.store.heap p := hrec
      have habs := lookup_absent σ'' hinv'' p _ hx'' (Or.inr rfl)
      have hnl := not_listed_of_phase σ'' hinv'' p _ hx'' (Or.inr rfl)
      rw [hrec'] at habs
      exact ⟨hnl.2.2.1, hnl.2.2.2, habs.1, habs.2⟩

/-- C12, instance: the first upload has completed; a further scheduler cycle (which
admits the third upload) leaves its record listed, and its own cleanup is enabled
and removes it from the listing. -/
theorem completed_until_purged_witness :
    Reachable (Sys.after firstCompleted) ∧
      0 ∈ (Sys.after firstCompleted).store.completed.map Prod.snd ∧
      (Sys.after firstCompleted).run [Action.poll 10]
        = some (Sys.after (firstCompleted ++ [Action.poll 10])) ∧
      Action.cleanup 0 ∉ [Action.poll 10] ∧
      deref (Sys.after firstCompleted).store.heap 0
        ∈ handleGetJobs (Sys.after (firstCompleted ++ [Action.poll 10])).store ∧
      (∃ σ', (Sys.after firstCompleted).step (Action.cleanup 0) = some σ' ∧
        listedJobs σ'.store
          = (listedJobs (Sys.after firstCompleted).store).filter (fun q => q != 0)) := by
  have hr : Reachable (Sys.after firstCompleted) := reachable_after firstCompleted (by decide)
  have hmem : 0 ∈ (Sys.after firstCompleted).store.completed.map Prod.snd := by decide
  have hrun : (Sys.after firstCompleted).run [Action.poll 10]
      = some (Sys.after (firstCompleted ++ [Action.poll 10])) := by decide
  have hnot : Action.cleanup 0 ∉ [Action.poll 10] := by simp
  refine ⟨hr, hmem, hrun, hnot, ?_, ?_⟩
  · exact ((completed_until_purged (Sys.after firstCompleted) hr 0 hmem).1
      [Action.poll 10] _ hrun hnot).2.2.1
  · obtain ⟨σ', hs, _, _, _, _, hl, _⟩ :=
      (completed_until_purged (Sys.after firstCompleted) hr 0 hmem).2
    exact ⟨σ', hs, hl⟩

end Bitzy
